import Mathlib

/-!
Verification development for the Sentinel data-logging appliance
(`src/Sentinel/DataAquisition.py`, `src/Sentinel/DatabaseInterface.py`,
`src/Sentinel/SentinelConfig.py`).

The Python code is shallowly embedded as executable Lean definitions:

* strings are `List Char`; `str.replace` is `pyReplace`;
* Python float values are modelled by `Dec` (an exact decimal number
  `mant / 10 ^ frac`), since `str(float)` prints a decimal literal and all
  arithmetic on the small values in question is exact;
* `eval` of a pure-arithmetic string is modelled by a recursive-descent
  parser (`parseGo` / `parseFull`) over `+ - * /`, parentheses and decimal
  literals, followed by exact evaluation over `ℚ` (`evalClosed`);
* Python exceptions are the constructors of `PyError`
  (`KeyError`, `SyntaxError`, `NameError`, `ZeroDivisionError`,
  `IndexError`), plus `infiniteLoop` marking a spot where the Python loop
  would never terminate;
* functions whose Python originals loop on a shrinking buffer are defined
  by structural recursion on a fuel argument initialised to the buffer
  length, so that every definition evaluates by kernel reduction.
-/

namespace Sentinel

/-- Python exceptions that the embedded code can raise.  `keyError` is what
the specification calls `UnknownChannelTag` (a failed dictionary lookup of a
channel tag), `syntaxError` is the specification's `InvalidExpression`. -/
inductive PyError where
  | keyError
  | syntaxError
  | nameError
  | zeroDivisionError
  | indexError
  | infiniteLoop
deriving DecidableEq, Repr

/-! ## Python `dict` as an insertion-ordered association list -/

/-- `d[k] = v` on an insertion-ordered dictionary: replace the value of an
existing key in place, otherwise append the new key at the end. -/
def dset {α β : Type} [DecidableEq α] : List (α × β) → α → β → List (α × β)
  | [], k, v => [(k, v)]
  | (k', v') :: rest, k, v =>
    if k' = k then (k, v) :: rest else (k', v') :: dset rest k v

/-- `d.get(k)`: the value stored under key `k`, if any. -/
def dget {α β : Type} [DecidableEq α] : List (α × β) → α → Option β
  | [], _ => none
  | (k', v') :: rest, k => if k' = k then some v' else dget rest k

/-- Keys of a dictionary, in insertion order. -/
def dkeys {α β : Type} (l : List (α × β)) : List α := l.map Prod.fst

/-! ## Decimal numbers: the printed form of a Python float

`str(value)` in `DataAquisition.__doCalculation` renders a float as a decimal
literal.  `Dec` is an exact decimal `mant / 10 ^ frac`; `renderDec` is the
model of `str`. -/

/-- An exact decimal number `mant / 10 ^ frac`. -/
structure Dec where
  mant : Int
  frac : Nat
deriving DecidableEq, Repr

/-- The rational value of a decimal. -/
def Dec.toQ (d : Dec) : ℚ := (d.mant : ℚ) / ((10 : ℚ) ^ d.frac)

/-- The character for a single decimal digit. -/
def digitChar (d : Nat) : Char := Char.ofNat (48 + d)

/-- Digit characters of a positive natural number, most significant
first; structurally recursive on a fuel bounded by the number itself. -/
def natDigitsGo : Nat → Nat → List Char
  | 0, _ => []
  | f + 1, n => if n = 0 then [] else natDigitsGo f (n / 10) ++ [digitChar (n % 10)]

/-- Decimal digits of a natural number, most significant first. -/
def natDigits (n : Nat) : List Char :=
  if n = 0 then ['0'] else natDigitsGo n n

/-- Left-pad a digit string with zeros to length `n`. -/
def padZeros (l : List Char) (n : Nat) : List Char :=
  List.replicate (n - l.length) '0' ++ l

/-- Model of Python `str` on a float value held as an exact decimal:
sign, integer part, and (when `frac > 0`) a decimal point followed by
exactly `frac` fractional digits. -/
def renderDec (d : Dec) : List Char :=
  (if d.mant < 0 then ['-'] else []) ++
    (if d.frac = 0 then natDigits d.mant.natAbs
     else natDigits (d.mant.natAbs / 10 ^ d.frac) ++
       '.' :: padZeros (natDigits (d.mant.natAbs % 10 ^ d.frac)) d.frac)

/-! ## Python `str.replace` and substring occurrence counting

`countOccGo` and `pyReplaceGo` scan left to right and, on a match of the
(nonempty) pattern, skip past it — Python's non-overlapping replacement.
They recurse structurally on a fuel initialised to the string length, which
always suffices because every step consumes at least one character. -/

def countOccGo (f : Nat) (s t : List Char) : Nat :=
  match f, s with
  | 0, _ => 0
  | _, [] => 0
  | f + 1, c :: rest =>
    if 0 < t.length ∧ t.isPrefixOf (c :: rest) then
      1 + countOccGo f (rest.drop (t.length - 1)) t
    else
      countOccGo f rest t

/-- Number of non-overlapping occurrences of `t` in `s`
(Python `s.count(t)` for nonempty `t`; `0` for empty `t`). -/
def countOcc (s t : List Char) : Nat := countOccGo s.length s t

def pyReplaceGo (f : Nat) (s t r : List Char) : List Char :=
  match f, s with
  | 0, s => s
  | _, [] => []
  | f + 1, c :: rest =>
    if t.isPrefixOf (c :: rest) then
      r ++ pyReplaceGo f (rest.drop (t.length - 1)) t r
    else
      c :: pyReplaceGo f rest t r

/-- Python `s.replace("", r)` interleaves `r` before every character and at
the end. -/
def pyInterleave (s r : List Char) : List Char :=
  match s with
  | [] => r
  | c :: rest => r ++ c :: pyInterleave rest r

/-- Python `s.replace(t, r)`: replace every non-overlapping occurrence of
`t` in `s` by `r`, scanning left to right. -/
def pyReplace (s t r : List Char) : List Char :=
  if t.length = 0 then pyInterleave s r else pyReplaceGo s.length s t r

/-! ## The arithmetic expression language evaluated by `eval`

`DataAquisition.__doCalculation` hands the substituted expression string to
Python's `eval`.  The model restricts `eval` to what the configuration
expressions use: decimal literals, the binary operators `+ - * /` with the
usual precedence and left associativity, parentheses, and a unary minus in
literal position. -/

/-- Abstract syntax of an arithmetic expression.  `var` only occurs before
substitution; `eval` raises `NameError` on an unbound name. -/
inductive Expr where
  | num (d : Dec)
  | var (t : List Char)
  | bin (op : Char) (l r : Expr)
deriving DecidableEq, Repr

/-- Apply a binary operator character; division by zero raises
`ZeroDivisionError`. -/
def applyOp (op : Char) (a b : ℚ) : Except PyError ℚ :=
  if op = '+' then .ok (a + b)
  else if op = '-' then .ok (a - b)
  else if op = '*' then .ok (a * b)
  else if op = '/' then (if b = 0 then .error .zeroDivisionError else .ok (a / b))
  else .error .syntaxError

/-- Evaluation of an expression with no environment, as `eval` does after
substitution: a leftover name raises `NameError`. -/
def evalClosed : Expr → Except PyError ℚ
  | .num d => .ok d.toQ
  | .var _ => .error .nameError
  | .bin op l r =>
    match evalClosed l, evalClosed r with
    | .ok a, .ok b => applyOp op a b
    | .error e, _ => .error e
    | _, .error e => .error e

/-- Evaluation with the channel tags bound as variables ("direct
evaluation" in the round-trip property). -/
def evalWith (env : List Char → ℚ) : Expr → Except PyError ℚ
  | .num d => .ok d.toQ
  | .var t => .ok (env t)
  | .bin op l r =>
    match evalWith env l, evalWith env r with
    | .ok a, .ok b => applyOp op a b
    | .error e, _ => .error e
    | _, .error e => .error e

/-- Longest run of decimal digits: accumulated value, number of digits
consumed, and the remaining input. -/
def parseDigits (acc : Nat) : List Char → Nat × Nat × List Char
  | [] => (acc, 0, [])
  | c :: rest =>
    if c.isDigit then
      let (v, n, r) := parseDigits (acc * 10 + (c.toNat - 48)) rest
      (v, n + 1, r)
    else
      (acc, 0, c :: rest)

/-- Parse a decimal literal with an optional leading minus sign: digits,
optionally followed by a decimal point and further digits.  Returns the
literal as a `Dec` (keeping the printed number of fractional digits) and
the remaining input. -/
def parseNum (s : List Char) : Option (Dec × List Char) :=
  let pr : Bool × List Char :=
    match s with
    | c :: rest => if c = '-' then (true, rest) else (false, c :: rest)
    | [] => (false, [])
  let neg := pr.1
  match pr.2 with
  | c :: cs =>
    if c.isDigit then
      match parseDigits 0 (c :: cs) with
      | (ip, _, s2) =>
        match s2 with
        | c2 :: s3 =>
          if c2 = '.' then
            match parseDigits 0 s3 with
            | (fp, k, s4) =>
              let m : Int := (ip * 10 ^ k + fp : Nat)
              some (⟨if neg then -m else m, k⟩, s4)
          else
            some (⟨if neg then -(ip : Int) else (ip : Int), 0⟩, c2 :: s3)
        | [] => some (⟨if neg then -(ip : Int) else (ip : Int), 0⟩, [])
    else none
  | [] => none

/-- The mode of the recursive-descent parser: `factor` is a literal or a
parenthesised expression, `term` chains factors with `*` and `/`, `expr`
chains terms with `+` and `-`; the loop modes carry the left-associated
accumulator. -/
inductive PMode where
  | factor
  | term
  | termLoop (acc : Expr)
  | expr
  | exprLoop (acc : Expr)

/-- Recursive-descent parser, structurally recursive on a fuel that is
decremented on every call.  `parseFull` supplies enough fuel for any
input. -/
def parseGo : Nat → PMode → List Char → Option (Expr × List Char)
  | 0, _, _ => none
  | f + 1, .factor, s =>
    match s with
    | c :: rest =>
      if c = '(' then
        match parseGo f .expr rest with
        | some (e, c2 :: r2) => if c2 = ')' then some (e, r2) else none
        | _ => none
      else (parseNum (c :: rest)).map (fun p => (Expr.num p.1, p.2))
    | [] => none
  | f + 1, .term, s =>
    match parseGo f .factor s with
    | some (e, r) => parseGo f (.termLoop e) r
    | none => none
  | f + 1, .termLoop acc, s =>
    match s with
    | c :: rest =>
      if c = '*' ∨ c = '/' then
        match parseGo f .factor rest with
        | some (e2, r) => parseGo f (.termLoop (.bin c acc e2)) r
        | none => none
      else some (acc, c :: rest)
    | [] => some (acc, [])
  | f + 1, .expr, s =>
    match parseGo f .term s with
    | some (e, r) => parseGo f (.exprLoop e) r
    | none => none
  | f + 1, .exprLoop acc, s =>
    match s with
    | c :: rest =>
      if c = '+' ∨ c = '-' then
        match parseGo f .term rest with
        | some (e2, r) => parseGo f (.exprLoop (.bin c acc e2)) r
        | none => none
      else some (acc, c :: rest)
    | [] => some (acc, [])

/-- Parse a complete arithmetic expression string. -/
def parseFull (s : List Char) : Option Expr :=
  match parseGo (6 * s.length + 6) .expr s with
  | some (e, []) => some e
  | _ => none

/-- Model of Python `eval` on a pure-arithmetic string: `SyntaxError` when
the string does not parse, otherwise exact evaluation. -/
def pyEval (s : List Char) : Except PyError ℚ :=
  match parseFull s with
  | none => .error .syntaxError
  | some e => evalClosed e

/-! ## `DataAquisition.__doCalculation`

```
for __, channelToken in channelDict.items():
    value = channelValues[channelToken]
    expr = expr.replace(channelToken, str(value))
return eval(expr)
```
-/

/-- A channel tag (the value side of the `Channels` configuration dict). -/
abbrev Tag := List Char

/-- The substitution loop of `__doCalculation`: for every channel token in
the channel dictionary — whether or not it occurs in the expression — look
its value up in `channelValues` (`KeyError` when absent) and textually
replace every occurrence in the expression by the printed value. -/
def substTokens (channelDict : List (String × Tag)) (channelValues : List (Tag × Dec))
    (expr : List Char) : Except PyError (List Char) :=
  match channelDict with
  | [] => .ok expr
  | (_, tok) :: rest =>
    match dget channelValues tok with
    | none => .error .keyError
    | some v => substTokens rest channelValues (pyReplace expr tok (renderDec v))

/-- `DataAquisition.__doCalculation expr channelDict channelValues`. -/
def doCalculation (expr : List Char) (channelDict : List (String × Tag))
    (channelValues : List (Tag × Dec)) : Except PyError ℚ :=
  match substTokens channelDict channelValues expr with
  | .error e => .error e
  | .ok s => pyEval s

/-! ## `DataAquisition.processingFunction`

```
resultDict = {}
for name, expr in currCalculations.items():
    resultDict[currMeasurementConfigName + "_" + name] = {}
offset = (1.0 / currScanRate)
reproducedTimestamp = timestamp.timestamp()
while len(data) > 0:
    channelValues = {}
    reversedList = list(currChannelDict.values())
    reversedList.reverse()
    for chanTag in reversedList:
        channelValues[chanTag] = data.pop()
    reproducedTimestamp = reproducedTimestamp - offset
    for name, expr in currCalculations.items():
        value = __doCalculation(expr, currChannelDict, channelValues)
        resultDict[currMeasurementConfigName + "_" + name][reproducedTimestamp] = value
for measName, valueDict in resultDict.items():
    queue.put_nowait((measName, valueDict))
```
-/

/-- A per-measurement value dictionary: reconstructed timestamp to value,
in insertion order. -/
abbrev ValueDict := List (ℚ × ℚ)

/-- The `resultDict` structure handed to the database interface. -/
abbrev ResultDict := List (String × ValueDict)

/-- The measurement name under which a calculation is stored:
`currMeasurementConfigName + "_" + name`. -/
def measKey (cfgName name : String) : String := cfgName ++ "_" ++ name

/-- Initialisation of `resultDict`: one empty value dict per calculation. -/
def initResultDict (cfgName : String) (calcs : List (String × List Char)) : ResultDict :=
  calcs.foldl (fun rd p => dset rd (measKey cfgName p.1) []) []

/-- The inner pop loop: `for chanTag in reversedList: channelValues[chanTag]
= data.pop()`.  Popping an empty list raises `IndexError`. -/
def popSeq (revTags : List Tag) (cv : List (Tag × Dec)) (data : List Dec) :
    Except PyError (List (Tag × Dec) × List Dec) :=
  match revTags with
  | [] => .ok (cv, data)
  | t :: rest =>
    match data.getLast? with
    | none => .error .indexError
    | some v => popSeq rest (dset cv t v) data.dropLast

/-- The calculation loop for one chunk: evaluate every configured
calculation on the popped channel values and store the result under the
reconstructed timestamp.  A missing `resultDict` key would be a Python
`KeyError`. -/
def evalCalcs (calcs : List (String × List Char)) (cfgName : String)
    (channelDict : List (String × Tag)) (cv : List (Tag × Dec)) (ts : ℚ)
    (rd : ResultDict) : Except PyError ResultDict :=
  match calcs with
  | [] => .ok rd
  | (name, expr) :: rest =>
    match doCalculation expr channelDict cv with
    | .error e => .error e
    | .ok v =>
      match dget rd (measKey cfgName name) with
      | none => .error .keyError
      | some d =>
        evalCalcs rest cfgName channelDict cv ts
          (dset rd (measKey cfgName name) (dset d ts v))

/-- The `while len(data) > 0` loop, structurally recursive on a fuel
initialised to `data.length` (each successful iteration consumes at least
one sample).  With an empty channel dict and nonempty data the Python loop
never terminates, which the model reports as `infiniteLoop`. -/
def procLoopGo (f : Nat) (calcs : List (String × List Char)) (cfgName : String)
    (channelDict : List (String × Tag)) (offset : ℚ) (revTags : List Tag)
    (rd : ResultDict) (ts : ℚ) (data : List Dec) : Except PyError ResultDict :=
  match f with
  | 0 => if data.length = 0 then .ok rd else .error .infiniteLoop
  | f + 1 =>
    if data.length = 0 then .ok rd
    else if revTags.length = 0 then .error .infiniteLoop
    else
      match popSeq revTags [] data with
      | .error e => .error e
      | .ok (cv, data') =>
        match evalCalcs calcs cfgName channelDict cv (ts - offset) rd with
        | .error e => .error e
        | .ok rd' =>
          procLoopGo f calcs cfgName channelDict offset revTags rd' (ts - offset) data'

/-- `DataAquisition.processingFunction`, returning the final `resultDict`
(whose entries are then pushed to the database-interface queue in order).
`timestamp` is the capture-end timestamp in seconds; a scan rate of zero
raises `ZeroDivisionError` at `offset = 1.0 / currScanRate`. -/
def processingFunction (timestamp : ℚ) (data : List Dec)
    (currCalculations : List (String × List Char)) (currMeasurementConfigName : String)
    (currChannelDict : List (String × Tag)) (currScanRate : ℚ) :
    Except PyError ResultDict :=
  if currScanRate = 0 then .error .zeroDivisionError
  else
    procLoopGo data.length currCalculations currMeasurementConfigName currChannelDict
      (1 / currScanRate) ((currChannelDict.map Prod.snd).reverse)
      (initResultDict currMeasurementConfigName currCalculations) timestamp data

/-- Total number of derived measurement points in a result dict. -/
def pointCount (rd : ResultDict) : Nat := (rd.map (fun p => p.2.length)).sum

/-! ## The polling loop of `DataAquisition.__scanningFunction`

```
while self.__runThread:
    sleep(__SCAN_SLEEP_TIME)
    acquiredData = hat.a_in_scan_read(READ_ALL_AVAILABLE, 0)
    if acquiredData.hardware_overrun:
        print('Hardware overrun'); continue
    elif acquiredData.buffer_overrun:
        print('Buffer overrun'); continue
    timestamp = datetime.now()
    asyncResult = pool.apply_async(processingFunction, args)
```
-/

/-- One poll of the device buffer: the flat sample data, the overrun flags
reported by the device, and the wall-clock timestamp the loop would take
after the read. -/
structure ScanResult where
  data : List Dec
  hardware_overrun : Bool
  buffer_overrun : Bool
  now : ℚ
deriving DecidableEq, Repr

/-- The arguments of one dispatched `processingFunction` workload. -/
structure ProcArgs where
  timestamp : ℚ
  data : List Dec
deriving DecidableEq, Repr

/-- The poll loop over a sequence of device reads: an overrun batch is
dropped (`continue`) and the loop proceeds with the next poll; a clean
batch is dispatched to the worker pool. -/
def scanDispatch : List ScanResult → List ProcArgs
  | [] => []
  | r :: rest =>
    if r.hardware_overrun then scanDispatch rest
    else if r.buffer_overrun then scanDispatch rest
    else ⟨r.now, r.data⟩ :: scanDispatch rest

/-- The number of derived measurement points one poll contributes: none
when it was not dispatched, otherwise the points of its processed batch. -/
def pollPoints (dispatched : List ProcArgs) (args : ProcArgs)
    (calcs : List (String × List Char)) (cfgName : String)
    (channelDict : List (String × Tag)) (scanRate : ℚ) : Nat :=
  if args ∈ dispatched then
    match processingFunction args.timestamp args.data calcs cfgName channelDict scanRate with
    | .ok rd => pointCount rd
    | .error _ => 0
  else 0

/-! ## `DataAquisition.stop` and `DatabaseInterface.storeFunction`

```
def stop(self):
    self.__confChangeTimer.cancel()
    self.__runThread = False
    self.__workerThread.join()
    self.__processingWorkerPool.terminate()
    self.__dbIfQueue.put_nowait(-1)
```

```
while self.__runThread:
    obj = self.__dbIfQueue.get()
    if obj == None: ...; continue
    if obj == -1: ...; return
    self.__writeSemaphore.acquire()
    measurement, value = obj[0], obj[1]
    if measurement not in self.valueCache.keys():
        self.valueCache[measurement] = {}
    self.valueCache[measurement].update(value)
    self.__writeSemaphore.release()
```
-/

/-- The atomic steps of `DataAquisition.stop`, in program order. -/
inductive StopAct where
  | cancelTimer
  | clearRunFlag
  | joinWorker
  | terminatePool
  | putSentinel
deriving DecidableEq, Repr

/-- The statement sequence of `DataAquisition.stop`. -/
def stopSequence : List StopAct :=
  [.cancelTimer, .clearRunFlag, .joinWorker, .terminatePool, .putSentinel]

/-- An entry of the database-interface queue: `None`, the `-1` shutdown
sentinel, or a `(measurementName, {timestamp: value})` tuple. -/
inductive QEntry where
  | noneObj
  | sentinel
  | item (name : String) (vals : ValueDict)
deriving DecidableEq

/-- `dict.update`: merge the fragment into the cached per-measurement
dict. -/
def cacheMerge (cache : List (String × ValueDict)) (name : String) (vals : ValueDict) :
    List (String × ValueDict) :=
  dset cache name (vals.foldl (fun d p => dset d p.1 p.2) ((dget cache name).getD []))

/-- `DatabaseInterface.storeFunction` consuming a delivered queue sequence:
returns the final value cache and the queue entries left unconsumed when
the function returned. -/
def storeFunction (cache : List (String × ValueDict)) :
    List QEntry → List (String × ValueDict) × List QEntry
  | [] => (cache, [])
  | .noneObj :: rest => storeFunction cache rest
  | .sentinel :: rest => (cache, rest)
  | .item name vals :: rest => storeFunction (cacheMerge cache name vals) rest

/-! ## Measurement configurations and `DataAquisition.changeMeasConfig`

The per-call effect of `changeMeasConfig` on the `DataAquisition` state:
the loop is stopped and joined, the active configuration index is replaced,
the new index is pushed to the GPIO queue, and the loop is restarted.  The
loaded configuration list itself is not touched. -/

/-- One measurement configuration as loaded from the JSON file. -/
structure MeasConfig where
  configName : String
  channels : List (String × Tag)
  scanRate : ℚ
  measurements : List (String × List Char)
  outputState : Bool
deriving DecidableEq

/-- The mutable fields of a `DataAquisition` object that
`changeMeasConfig` touches, plus the loaded configuration list. -/
structure DAQState where
  measurementConfig : List MeasConfig
  activeMeasConfigIdx : Nat
  runThread : Bool
  gpioQueue : List Nat
deriving DecidableEq

/-- The state update performed by one complete `changeMeasConfig(idx)`
call: stop flag cleared and loop joined, index swapped, index pushed to the
GPIO queue, loop restarted. -/
def changeMeasConfigState (s : DAQState) (measConfIdx : Nat) : DAQState :=
  { s with
    activeMeasConfigIdx := measConfIdx
    gpioQueue := s.gpioQueue ++ [measConfIdx]
    runThread := true }

/-! ## Auxiliary notions on expressions, for the substitution round trip -/

/-- The rendered text of an expression: decimal literals, tag names, and
fully parenthesised binary nodes.  This is the textual form of "an
arithmetic expression over a set of channel tags". -/
def renderP : Expr → List Char
  | .num d => renderDec d
  | .var t => t
  | .bin op l r => '(' :: (renderP l ++ op :: (renderP r ++ [')']))

/-- The channel tags occurring in an expression. -/
def varsOf : Expr → List Tag
  | .num _ => []
  | .var t => [t]
  | .bin _ l r => varsOf l ++ varsOf r

/-- An expression with no free channel tags. -/
def closedE (e : Expr) : Prop := varsOf e = []

/-- All operators of the expression are among `+ - * /`. -/
def opsValid : Expr → Prop
  | .num _ => True
  | .var _ => True
  | .bin op l r =>
    (op = '+' ∨ op = '-' ∨ op = '*' ∨ op = '/') ∧ opsValid l ∧ opsValid r

/-- Node count of an expression. -/
def sizeE : Expr → Nat
  | .num _ => 1
  | .var _ => 1
  | .bin _ l r => sizeE l + sizeE r + 1

/-- Substitution at the syntax-tree level: replace the channel tag `t` by
the decimal literal `d`. -/
def substVar (e : Expr) (t : Tag) (d : Dec) : Expr :=
  match e with
  | .num d' => .num d'
  | .var t' => if t' = t then .num d else .var t'
  | .bin op l r => .bin op (substVar l t d) (substVar r t d)

/-- Substitute a whole assignment, tag by tag in list order. -/
def substAllAST (e : Expr) (pairs : List (Tag × Dec)) : Expr :=
  pairs.foldl (fun e p => substVar e p.1 p.2) e

/-- Text-substitution of a whole assignment, tag by tag in list order —
the operation the substitution loop of `__doCalculation` performs. -/
def stringSubstAll (s : List Char) (pairs : List (Tag × Dec)) : List Char :=
  pairs.foldl (fun s p => pyReplace s p.1 (renderDec p.2)) s

/-- A channel tag that is a plain nonempty alphabetic identifier. -/
def alphaTag (t : Tag) : Prop := t ≠ [] ∧ ∀ c ∈ t, c.isAlpha

/-- The pure substituted string of `__doCalculation` when every dictionary
tag is mapped (the default is irrelevant in that case). -/
def substPure (channelDict : List (String × Tag)) (channelValues : List (Tag × Dec))
    (expr : List Char) : List Char :=
  channelDict.foldl
    (fun e p => pyReplace e p.2 (renderDec ((dget channelValues p.2).getD ⟨0, 0⟩))) expr

/-- The reconstructed timestamps of a batch of `m` chunks ending at `ts`,
in processing order (most recent chunk first). -/
def tsSeq (m : Nat) (ts offset : ℚ) : List ℚ :=
  (List.range m).map (fun i : Nat => ts - ((i : ℚ) + 1) * offset)

/-- The measurement names of the configured calculations. -/
def mkNames (cfgName : String) (calcs : List (String × List Char)) : List String :=
  calcs.map (fun p => measKey cfgName p.1)

/-! ## The reconfiguration protocol as an interleaving state machine

`changeMeasConfig` under `threading.Semaphore(1)`:

```
self.__changeMeasConfSem.acquire()       -- pc 0
self.__runThread = False                 -- pc 1
self.__workerThread.join()               -- pc 2 (blocks until loop exits)
if self.__workerThread.is_alive():       -- pc 3
    raise Exception("DataAquisition working loop could not terminate")
self.__activeMeasConfigIdx = measConfIdx -- pc 4
self.__gpioQueue.put_nowait(...)         -- pc 5
self.__runThread = True                  -- pc 6 (with Thread(); start())
self.__changeMeasConfSem.release()       -- pc 7
                                         -- pc 8: returned
```

Two concurrent calls (thread A and thread B) interleave with an
environment step modelling the acquisition loop observing the cleared run
flag and exiting.  `loops` counts the running acquisition-loop threads
(`Fin 3` so that "at most one" is a statement, not a typing artifact);
`join` can only complete once no loop is running, and a completed `join`
with the loop still alive would set `raised`. -/

/-- The shared state of the reconfiguration protocol. -/
structure RShared where
  sem : Bool
  runFlag : Bool
  loops : Fin 3
  raised : Bool
deriving DecidableEq, Fintype

/-- A protocol state: the program counters of the two reconfiguration
calls plus the shared state. -/
structure RState where
  pcA : Fin 9
  pcB : Fin 9
  shared : RShared
deriving DecidableEq, Fintype

/-- One step of a reconfiguration call whose program counter is `pc`. -/
def threadStep (pc : Fin 9) (sh : RShared) : Option (Fin 9 × RShared) :=
  if pc.val = 0 then
    if sh.sem then some (1, { sh with sem := false }) else none
  else if pc.val = 1 then some (2, { sh with runFlag := false })
  else if pc.val = 2 then
    if sh.loops.val = 0 then some (3, sh) else none
  else if pc.val = 3 then
    if sh.loops.val ≠ 0 then some (8, { sh with raised := true }) else some (4, sh)
  else if pc.val = 4 then some (5, sh)
  else if pc.val = 5 then some (6, sh)
  else if pc.val = 6 then
    some (7, { sh with runFlag := true, loops := ⟨min (sh.loops.val + 1) 2, by omega⟩ })
  else if pc.val = 7 then some (8, { sh with sem := true })
  else none

/-- Which component moves: one of the two reconfiguration calls, or the
acquisition loop observing the cleared run flag and terminating. -/
inductive RLabel where
  | stepA
  | stepB
  | loopExit
deriving DecidableEq, Fintype

/-- The global step function of the interleaving semantics. -/
def rstep (s : RState) : RLabel → Option RState
  | .stepA => (threadStep s.pcA s.shared).map (fun p => ⟨p.1, s.pcB, p.2⟩)
  | .stepB => (threadStep s.pcB s.shared).map (fun p => ⟨s.pcA, p.1, p.2⟩)
  | .loopExit =>
    if s.shared.loops.val ≠ 0 ∧ s.shared.runFlag = false then
      some { s with shared := { s.shared with loops := ⟨s.shared.loops.val - 1, by omega⟩ } }
    else none

/-- Initial state: both calls about to acquire the semaphore, exactly one
acquisition loop running. -/
def rinit : RState := ⟨0, 0, ⟨true, true, 1, false⟩⟩

/-- States reachable from `rinit` by interleaved steps. -/
inductive RReach : RState → Prop where
  | init : RReach rinit
  | step {s s' : RState} {l : RLabel} : RReach s → rstep s l = some s' → RReach s'

/-- A call is inside the critical section: it has acquired the semaphore
and not yet released it. -/
def inCrit (pc : Fin 9) : Prop := 1 ≤ pc.val ∧ pc.val ≤ 7

/-- A call is between a completed `join` and the restart. -/
def midJoin (pc : Fin 9) : Prop := 3 ≤ pc.val ∧ pc.val ≤ 6

/-- The inductive invariant of the reconfiguration protocol. -/
def rinv (s : RState) : Prop :=
  (¬(inCrit s.pcA ∧ inCrit s.pcB)) ∧
  (s.shared.sem = true ↔ ¬inCrit s.pcA ∧ ¬inCrit s.pcB) ∧
  s.shared.loops.val ≤ 1 ∧
  (midJoin s.pcA → s.shared.loops.val = 0) ∧
  (midJoin s.pcB → s.shared.loops.val = 0) ∧
  s.shared.raised = false

instance : DecidablePred rinv := fun s => by
  unfold rinv inCrit midJoin
  infer_instance

/-! ## A heap model of `copy.deepcopy` for `SentinelConfig.getConfig`

`getConfig` returns `copy.deepcopy(self.__configDict[configDomain])`.  To
state that a deep copy isolates the stored configuration from caller
mutation, Python objects are modelled as nodes of an address-indexed heap;
a deep copy materialises fresh nodes (here: a shifted copy of every node,
with all internal references redirected to the fresh copies) and mutation
is an in-place update of a heap node. -/

/-- An immutable Python scalar. -/
inductive PyScalar where
  | qv (q : ℚ)
  | sv (s : String)
  | bv (b : Bool)
  | noneV
deriving DecidableEq, Repr

/-- A heap node: a scalar, a list of references, or a dict of
references. -/
inductive PyObj where
  | scalar (v : PyScalar)
  | arr (elems : List Nat)
  | dict (entries : List (String × Nat))
deriving DecidableEq, Repr

/-- The heap: node addresses are list indices; allocation appends. -/
abbrev Heap := List PyObj

/-- The addresses a node refers to. -/
def objRefs : PyObj → List Nat
  | .scalar _ => []
  | .arr es => es
  | .dict es => es.map Prod.snd

/-- A heap whose nodes only refer to allocated addresses. -/
def heapClosed (h : Heap) : Prop := ∀ o ∈ h, ∀ b ∈ objRefs o, b < h.length

instance : DecidablePred heapClosed := fun h => by
  unfold heapClosed
  infer_instance

/-- The pure value tree read out of the heap from address `a` (fuel-bounded
dereferencing). -/
inductive JVal where
  | scalar (v : PyScalar)
  | arr (elems : List JVal)
  | dict (entries : List (String × JVal))

/-- Read the value tree rooted at address `a`. -/
def readVal (h : Heap) : Nat → Nat → Option JVal
  | 0, _ => none
  | f + 1, a =>
    match h.get? a with
    | none => none
    | some (.scalar v) => some (.scalar v)
    | some (.arr es) => (es.mapM (readVal h f)).map .arr
    | some (.dict es) =>
      (es.mapM (fun p => (readVal h f p.2).map (fun t => (p.1, t)))).map .dict

/-- A node with every internal reference shifted by `n`. -/
def shiftObj (n : Nat) : PyObj → PyObj
  | .scalar v => .scalar v
  | .arr es => .arr (es.map (· + n))
  | .dict es => .dict (es.map (fun p => (p.1, p.2 + n)))

/-- Model of `copy.deepcopy` rooted at `a`: append a fresh copy of every
node, with references redirected into the fresh copies, and return the
fresh address of `a`. -/
def deepcopy (h : Heap) (a : Nat) : Heap × Nat :=
  (h ++ h.map (shiftObj h.length), a + h.length)

/-- Model of `SentinelConfig.getConfig`: look the domain key up in the
loaded configuration dict and hand back a deep copy of it (an invalid key
raises `ValueError`, modelled as `none`). -/
def getConfigH (h : Heap) (configDict : Nat) (configDomain : String) :
    Option (Heap × Nat) :=
  match h.get? configDict with
  | some (.dict entries) =>
    match dget entries configDomain with
    | some a => some (deepcopy h a)
    | none => none
  | _ => none

/-- An in-place mutation of the object at address `a`. -/
def hset (h : Heap) (a : Nat) (o : PyObj) : Heap := h.set a o

/-- A sequence of caller mutations. -/
def applyWrites (h : Heap) (ws : List (Nat × PyObj)) : Heap :=
  ws.foldl (fun h w => hset h w.1 w.2) h

/-- The addresses reachable from `a` within `f` dereferencing steps. -/
def reachList (h : Heap) : Nat → Nat → List Nat
  | 0, a => [a]
  | f + 1, a => a :: (((h.get? a).elim [] objRefs).map (reachList h f)).flatten

/-- The numeric value of a most-significant-first digit string, as the
digit-run parser accumulates it. -/
def digitsVal (L : List Char) : Nat := L.foldl (fun a c => a * 10 + (c.toNat - 48)) 0

/-- A remaining input that cannot extend a numeric literal. -/
def numRestOK (rest : List Char) : Prop :=
  ∀ c, rest.head? = some c → c.isDigit = false ∧ c ≠ '.'

/-- A remaining input that can follow a factor: closing parenthesis or an
operator. -/
def headOK (rest : List Char) : Prop :=
  ∀ c, rest.head? = some c → c = ')' ∨ c = '+' ∨ c = '-' ∨ c = '*' ∨ c = '/'

/-- A remaining input on which the chain loops stop: only a closing
parenthesis may follow. -/
def headStop (rest : List Char) : Prop := ∀ c, rest.head? = some c → c = ')'

/-- Enough parser fuel for a rendered expression. -/
def fuelB (e : Expr) : Nat := 7 * sizeE e

/-- The numeric literals occurring in an expression. -/
def numLits : Expr → List Dec
  | .num d => [d]
  | .var _ => []
  | .bin _ l r => numLits l ++ numLits r

/-- Decidability of `opsValid`, by structural recursion. -/
def opsValidDec : (e : Expr) → Decidable (opsValid e)
  | .num _ => isTrue trivial
  | .var _ => isTrue trivial
  | .bin op l r =>
    letI := opsValidDec l
    letI := opsValidDec r
    decidable_of_iff ((op = '+' ∨ op = '-' ∨ op = '*' ∨ op = '/') ∧ opsValid l ∧ opsValid r)
      Iff.rfl

instance : DecidablePred opsValid := opsValidDec

instance : DecidablePred alphaTag := fun t =>
  decidable_of_iff (t ≠ [] ∧ ∀ c ∈ t, c.isAlpha = true) Iff.rfl

instance : DecidablePred closedE := fun e =>
  decidable_of_iff (varsOf e = []) Iff.rfl

deriving instance DecidableEq for Except

/-- The invariant as an executable check, for exhaustive state
enumeration. -/
def rinvB (s : RState) : Bool := decide (rinv s)

/-- Executable check that a step advances the stepping call by exactly one
program point. -/
def advanceOK (s : RState) (l : RLabel) : Bool :=
  match rstep s l with
  | none => true
  | some s2 =>
    match l with
    | RLabel.stepA => decide (s2.pcA.val = s.pcA.val + 1)
    | RLabel.stepB => decide (s2.pcB.val = s.pcB.val + 1)
    | RLabel.loopExit => true

/-! # Lemmas

## Dictionary lemmas -/

theorem dget_dset_self {α β : Type} [DecidableEq α] (l : List (α × β)) (k : α) (v : β) :
    dget (dset l k v) k = some v := by
  induction l with
  | nil => simp [dset, dget]
  | cons p rest ih =>
    by_cases h : p.1 = k
    · simp [dset, dget, h]
    · simp [dset, dget, h, ih]

theorem dget_dset_ne {α β : Type} [DecidableEq α] (l : List (α × β)) (k k' : α) (v : β)
    (h : k ≠ k') : dget (dset l k v) k' = dget l k' := by
  induction l with
  | nil => simp [dset, dget, h]
  | cons p rest ih =>
    by_cases hp : p.1 = k
    · simp [dset, dget, hp, h]
    · simp only [dset, if_neg hp]
      by_cases hp' : p.1 = k'
      · simp [dget, hp']
      · simp [dget, hp', ih]

theorem dkeys_dset_of_mem {α β : Type} [DecidableEq α] (l : List (α × β)) (k : α) (v : β)
    (h : k ∈ dkeys l) : dkeys (dset l k v) = dkeys l := by
  induction l with
  | nil => simp [dkeys] at h
  | cons p rest ih =>
    by_cases hp : p.1 = k
    · simp [dset, hp, dkeys]
    · have hmem : k ∈ dkeys rest := by
        simp [dkeys] at h
        rcases h with h | h
        · exact absurd h.symm hp
        · simpa [dkeys] using h
      have ih' := ih hmem
      simp only [dkeys] at ih'
      simp [dset, hp, dkeys, ih']

theorem dkeys_dset_of_not_mem {α β : Type} [DecidableEq α] (l : List (α × β)) (k : α) (v : β)
    (h : k ∉ dkeys l) : dkeys (dset l k v) = dkeys l ++ [k] := by
  induction l with
  | nil => simp [dset, dkeys]
  | cons p rest ih =>
    have hp : p.1 ≠ k := by
      intro hc
      exact h (by simp [dkeys, hc])
    have hmem : k ∉ dkeys rest := by
      intro hc
      exact h (by simp [dkeys]; right; simpa [dkeys] using hc)
    have ih' := ih hmem
    simp only [dkeys] at ih'
    simp [dset, hp, dkeys, ih']

theorem dget_none_of_not_mem {α β : Type} [DecidableEq α] (l : List (α × β)) (k : α)
    (h : k ∉ dkeys l) : dget l k = none := by
  induction l with
  | nil => simp [dget]
  | cons p rest ih =>
    have hp : p.1 ≠ k := by
      intro hc
      exact h (by simp [dkeys, hc])
    have hmem : k ∉ dkeys rest := by
      intro hc
      exact h (by simp [dkeys]; right; simpa [dkeys] using hc)
    simp [dget, hp, ih hmem]

theorem dget_mem_of_some {α β : Type} [DecidableEq α] {l : List (α × β)} {k : α} {v : β}
    (h : dget l k = some v) : k ∈ dkeys l := by
  induction l with
  | nil => simp [dget] at h
  | cons p rest ih =>
    by_cases hp : p.1 = k
    · simp [dkeys, hp]
    · simp only [dget, if_neg hp] at h
      have ih' : ∃ x, (k, x) ∈ rest := by simpa [dkeys] using ih h
      obtain ⟨b, hb⟩ := ih'
      simp [dkeys]
      right
      exact ⟨b, hb⟩

theorem dget_of_mem_nodup {α β : Type} [DecidableEq α] {l : List (α × β)} {k : α} {v : β}
    (hnd : (dkeys l).Nodup) (h : (k, v) ∈ l) : dget l k = some v := by
  induction l with
  | nil => simp at h
  | cons p rest ih =>
    simp only [dkeys, List.map_cons, List.nodup_cons] at hnd
    rcases List.mem_cons.mp h with h | h
    · simp [dget, ← h]
    · have hp : p.1 ≠ k := by
        intro hc
        exact hnd.1 (hc ▸ (by simpa [dkeys] using List.mem_map_of_mem Prod.fst h))
      simp [dget, hp, ih hnd.2 h]

/-- `dset` at a fresh timestamp appends the new pair at the end. -/
theorem dset_append_fresh {α β : Type} [DecidableEq α] (l : List (α × β)) (k : α) (v : β)
    (h : k ∉ dkeys l) : dset l k v = l ++ [(k, v)] := by
  induction l with
  | nil => simp [dset]
  | cons p rest ih =>
    have hp : p.1 ≠ k := by
      intro hc
      exact h (by simp [dkeys, hc])
    have hmem : k ∉ dkeys rest := by
      intro hc
      exact h (by simp [dkeys]; right; simpa [dkeys] using hc)
    simp [dset, hp, ih hmem]

/-- Re-setting the key of the last-appended pair replaces its value. -/
theorem dset_append_last {α β : Type} [DecidableEq α] (l : List (α × β)) (k : α) (v w : β)
    (h : k ∉ dkeys l) : dset (l ++ [(k, w)]) k v = l ++ [(k, v)] := by
  induction l with
  | nil => simp [dset]
  | cons p rest ih =>
    have hp : p.1 ≠ k := by
      intro hc
      exact h (by simp [dkeys, hc])
    have hmem : k ∉ dkeys rest := by
      intro hc
      exact h (by simp [dkeys]; right; simpa [dkeys] using hc)
    simp [dset, hp, ih hmem]

/-! ## String lemmas: `pyReplace` and `countOcc` -/

theorem pyReplaceGo_fuel (t : List Char) (_ht : t ≠ []) :
    ∀ f g (s r : List Char), s.length ≤ f → s.length ≤ g →
      pyReplaceGo f s t r = pyReplaceGo g s t r := by
  intro f
  induction f with
  | zero =>
    intro g s r hf hg
    have hs : s = [] := List.eq_nil_of_length_eq_zero (Nat.le_zero.mp hf)
    subst hs
    cases g <;> simp [pyReplaceGo]
  | succ f ih =>
    intro g s r hf hg
    cases s with
    | nil => cases g <;> simp [pyReplaceGo]
    | cons c rest =>
      cases g with
      | zero => simp at hg
      | succ g =>
        simp only [pyReplaceGo]
        by_cases hp : t.isPrefixOf (c :: rest) = true
        · rw [if_pos hp, if_pos hp]
          congr 1
          exact ih g _ r
            (by
              have := List.length_drop (t.length - 1) rest
              simp at hf
              omega)
            (by
              have := List.length_drop (t.length - 1) rest
              simp at hg
              omega)
        · rw [if_neg hp, if_neg hp]
          congr 1
          exact ih g rest r (by simp at hf; omega) (by simp at hg; omega)

theorem countOccGo_fuel (t : List Char) :
    ∀ f g (s : List Char), s.length ≤ f → s.length ≤ g →
      countOccGo f s t = countOccGo g s t := by
  intro f
  induction f with
  | zero =>
    intro g s hf hg
    have hs : s = [] := List.eq_nil_of_length_eq_zero (Nat.le_zero.mp hf)
    subst hs
    cases g <;> simp [countOccGo]
  | succ f ih =>
    intro g s hf hg
    cases s with
    | nil => cases g <;> simp [countOccGo]
    | cons c rest =>
      cases g with
      | zero => simp at hg
      | succ g =>
        simp only [countOccGo]
        by_cases hp : 0 < t.length ∧ t.isPrefixOf (c :: rest) = true
        · rw [if_pos hp, if_pos hp]
          congr 1
          exact ih g _
            (by
              have := List.length_drop (t.length - 1) rest
              simp at hf
              omega)
            (by
              have := List.length_drop (t.length - 1) rest
              simp at hg
              omega)
        · rw [if_neg hp, if_neg hp]
          exact ih g rest (by simp at hf; omega) (by simp at hg; omega)

theorem pyReplace_nil (t r : List Char) (ht : t ≠ []) : pyReplace [] t r = [] := by
  have : t.length ≠ 0 := by simpa using ht
  simp [pyReplace, this, pyReplaceGo]

theorem pyReplace_cons (c : Char) (s t r : List Char) (ht : t ≠ []) :
    pyReplace (c :: s) t r =
      if t.isPrefixOf (c :: s) then r ++ pyReplace ((c :: s).drop t.length) t r
      else c :: pyReplace s t r := by
  have hlt : t.length ≠ 0 := by simpa using ht
  obtain ⟨k, hk⟩ : ∃ k, t.length = k + 1 := ⟨t.length - 1, by omega⟩
  simp only [pyReplace, if_neg hlt]
  rw [show pyReplaceGo (c :: s).length (c :: s) t r =
      pyReplaceGo (s.length + 1) (c :: s) t r by simp]
  simp only [pyReplaceGo]
  by_cases hp : t.isPrefixOf (c :: s) = true
  · rw [if_pos hp, if_pos hp]
    congr 1
    have hdrop : (c :: s).drop t.length = s.drop (t.length - 1) := by
      rw [hk]
      simp
    rw [hdrop]
    exact pyReplaceGo_fuel t ht _ _ _ r (by have := List.length_drop (t.length - 1) s; omega)
      (le_refl _)
  · rw [if_neg hp, if_neg hp]

theorem countOcc_nil (t : List Char) : countOcc [] t = 0 := by
  simp [countOcc, countOccGo]

theorem countOcc_cons (c : Char) (s t : List Char) (ht : t ≠ []) :
    countOcc (c :: s) t =
      if t.isPrefixOf (c :: s) then 1 + countOcc ((c :: s).drop t.length) t
      else countOcc s t := by
  have hlt : 0 < t.length := by
    cases t
    · exact absurd rfl ht
    · simp
  obtain ⟨k, hk⟩ : ∃ k, t.length = k + 1 := ⟨t.length - 1, by omega⟩
  simp only [countOcc]
  rw [show countOccGo (c :: s).length (c :: s) t =
      countOccGo (s.length + 1) (c :: s) t by simp]
  simp only [countOccGo]
  by_cases hp : t.isPrefixOf (c :: s) = true
  · rw [if_pos ⟨hlt, hp⟩, if_pos hp]
    congr 1
    have hdrop : (c :: s).drop t.length = s.drop (t.length - 1) := by
      rw [hk]
      simp
    rw [hdrop]
    exact countOccGo_fuel t _ _ _ (by have := List.length_drop (t.length - 1) s; omega)
      (le_refl _)
  · have hp' : ¬(0 < t.length ∧ t.isPrefixOf (c :: s) = true) := by
      intro hc
      exact hp hc.2
    rw [if_neg hp', if_neg hp]

/-- An all-alphabetic nonempty pattern is never a prefix of a string whose
head is not alphabetic. -/
theorem not_isPrefixOf_of_head_not_alpha {t : List Char} (ht : alphaTag t) {c : Char}
    (hc : c.isAlpha = false) (ys : List Char) : ¬(t.isPrefixOf (c :: ys) = true) := by
  intro hp
  cases t with
  | nil => exact ht.1 rfl
  | cons th tt =>
    have hpre : (th :: tt) <+: (c :: ys) := by
      exact List.isPrefixOf_iff_prefix.mp hp
    have : th = c := by
      have h0 : (0 : Nat) < (th :: tt).length := by simp
      have hget := hpre.getElem h0
      simpa using hget
    have halpha := ht.2 th (by simp)
    rw [this, hc] at halpha
    simp at halpha

/-- A string with no alphabetic characters contains no occurrence of an
alphabetic tag. -/
theorem countOcc_eq_zero_of_no_alpha {s : List Char} (hs : ∀ c ∈ s, c.isAlpha = false)
    {t : List Char} (ht : alphaTag t) : countOcc s t = 0 := by
  induction s with
  | nil => exact countOcc_nil t
  | cons c rest ih =>
    rw [countOcc_cons c rest t ht.1]
    rw [if_neg (not_isPrefixOf_of_head_not_alpha ht (hs c (by simp)) rest)]
    exact ih (fun c hc => hs c (by simp [hc]))

/-- Replacing a tag that does not occur leaves the string unchanged. -/
theorem pyReplace_of_countOcc_zero {s t : List Char} (ht : t ≠ [])
    (h : countOcc s t = 0) (r : List Char) : pyReplace s t r = s := by
  induction s with
  | nil => exact pyReplace_nil t r ht
  | cons c rest ih =>
    rw [countOcc_cons c rest t ht] at h
    rw [pyReplace_cons c rest t r ht]
    by_cases hp : t.isPrefixOf (c :: rest) = true
    · rw [if_pos hp] at h
      omega
    · rw [if_neg hp] at h
      rw [if_neg hp, ih h]

/-- Replacing the tag in the tag itself yields the replacement. -/
theorem pyReplace_self {t : List Char} (ht : t ≠ []) (r : List Char) :
    pyReplace t t r = r := by
  cases t with
  | nil => exact absurd rfl ht
  | cons c rest =>
    rw [pyReplace_cons c rest (c :: rest) r ht]
    rw [if_pos (List.isPrefixOf_iff_prefix.mpr (List.prefix_refl _))]
    rw [List.drop_length]
    rw [pyReplace_nil _ r ht]
    simp

theorem isPrefixOf_append_left {t u v : List Char} (hp : t.isPrefixOf (u ++ v) = true)
    (hle : t.length ≤ u.length) : t.isPrefixOf u = true := by
  have hpre := List.isPrefixOf_iff_prefix.mp hp
  have ht : t = (u ++ v).take t.length := List.prefix_iff_eq_take.mp hpre
  rw [List.take_append_of_le_length hle] at ht
  exact List.isPrefixOf_iff_prefix.mpr (ht ▸ List.take_prefix t.length u)

theorem isPrefixOf_append_ext {t u : List Char} (v : List Char)
    (hp : t.isPrefixOf u = true) : t.isPrefixOf (u ++ v) = true :=
  List.isPrefixOf_iff_prefix.mpr ((List.isPrefixOf_iff_prefix.mp hp).trans (u.prefix_append v))

/-- A long all-alphabetic prefix of `u ++ c :: v` with `|t| > |u|` would
have to contain the non-alphabetic `c`. -/
theorem not_isPrefixOf_long {t u v : List Char} {c : Char} (ht : alphaTag t)
    (hc : c.isAlpha = false) (hgt : u.length < t.length) :
    ¬(t.isPrefixOf (u ++ c :: v) = true) := by
  intro hp
  have hpre := List.isPrefixOf_iff_prefix.mp hp
  have hget := hpre.getElem (show u.length < t.length from hgt)
  have hlen : u.length < (u ++ c :: v).length := by simp
  have huc : (u ++ c :: v)[u.length] = c := List.getElem_of_append rfl rfl
  have hcmem : c ∈ t := by
    have hmem := List.getElem_mem (l := t) hgt
    rw [hget, huc] at hmem
    exact hmem
  have := ht.2 c hcmem
  rw [hc] at this
  simp at this

/-- Replacement of an all-alphabetic tag distributes over a non-alphabetic
separator character. -/
theorem pyReplace_append_sep {t : List Char} (ht : alphaTag t) {c : Char}
    (hc : c.isAlpha = false) :
    ∀ n xs ys r, xs.length ≤ n →
      pyReplace (xs ++ c :: ys) t r = pyReplace xs t r ++ c :: pyReplace ys t r := by
  have htne : t ≠ [] := ht.1
  intro n
  induction n with
  | zero =>
    intro xs ys r hlen
    have hxs : xs = [] := List.eq_nil_of_length_eq_zero (Nat.le_zero.mp hlen)
    subst hxs
    rw [List.nil_append, pyReplace_cons c ys t r htne,
      if_neg (not_isPrefixOf_of_head_not_alpha ht hc ys), pyReplace_nil t r htne,
      List.nil_append]
  | succ n ih =>
    intro xs ys r hlen
    cases xs with
    | nil =>
      rw [List.nil_append, pyReplace_cons c ys t r htne,
        if_neg (not_isPrefixOf_of_head_not_alpha ht hc ys), pyReplace_nil t r htne,
        List.nil_append]
    | cons x xs =>
      have hassoc : (x :: xs) ++ c :: ys = x :: (xs ++ c :: ys) := by simp
      rw [hassoc, pyReplace_cons x (xs ++ c :: ys) t r htne, pyReplace_cons x xs t r htne]
      by_cases hp : t.isPrefixOf (x :: (xs ++ c :: ys)) = true
      · rw [if_pos hp]
        have hle : t.length ≤ xs.length + 1 := by
          by_contra hgt
          exact not_isPrefixOf_long (u := x :: xs) (v := ys) ht hc (by simp; omega)
            (by rw [← hassoc] at hp; exact hp)
        have hpu : t.isPrefixOf (x :: xs) = true := by
          rw [← hassoc] at hp
          exact isPrefixOf_append_left hp (by simpa using hle)
        rw [if_pos hpu]
        have hdrop : (x :: (xs ++ c :: ys)).drop t.length =
            (x :: xs).drop t.length ++ c :: ys := by
          rw [← hassoc]
          exact List.drop_append_of_le_length (by simpa using hle)
        rw [hdrop]
        have hlen2 : ((x :: xs).drop t.length).length ≤ n := by
          have := List.length_drop t.length (x :: xs)
          have ht1 : 0 < t.length := by
            cases t
            · exact absurd rfl htne
            · simp
          simp at this ⊢
          simp at hlen
          omega
        rw [ih _ ys r hlen2]
        simp
      · rw [if_neg hp]
        have hpu : ¬(t.isPrefixOf (x :: xs) = true) := by
          intro hx
          rw [← hassoc] at hp
          exact hp (isPrefixOf_append_ext (c :: ys) hx)
        rw [if_neg hpu]
        rw [ih xs ys r (by simp at hlen; omega)]
        simp

/-! ## Characters of rendered decimals -/

theorem natDigitsGo_eq_digits :
    ∀ f n : Nat, n ≤ f → natDigitsGo f n = (Nat.digits 10 n).reverse.map digitChar := by
  intro f
  induction f with
  | zero =>
    intro n hn
    have : n = 0 := by omega
    subst this
    simp [natDigitsGo]
  | succ f ih =>
    intro n hn
    by_cases hz : n = 0
    · subst hz
      simp [natDigitsGo]
    · have hrec : natDigitsGo (f + 1) n =
          natDigitsGo f (n / 10) ++ [digitChar (n % 10)] := by
        simp [natDigitsGo, hz]
      have hlt : n / 10 < n := Nat.div_lt_self (by omega) (by norm_num)
      rw [hrec, ih (n / 10) (Nat.lt_succ_iff.mp (lt_of_lt_of_le hlt hn))]
      rw [show Nat.digits 10 n = n % 10 :: Nat.digits 10 (n / 10) from
        Nat.digits_def' (by norm_num) (by omega)]
      simp

theorem natDigits_eq (n : Nat) :
    natDigits n = if n = 0 then ['0'] else (Nat.digits 10 n).reverse.map digitChar := by
  unfold natDigits
  by_cases hz : n = 0
  · simp [hz]
  · simp [hz, natDigitsGo_eq_digits n n (le_refl n)]


theorem digitChar_not_alpha {d : Nat} (hd : d < 10) : (digitChar d).isAlpha = false := by
  interval_cases d <;> decide

theorem digitChar_isDigit {d : Nat} (hd : d < 10) : (digitChar d).isDigit = true := by
  interval_cases d <;> decide

theorem natDigits_not_alpha {n : Nat} : ∀ c ∈ natDigits n, c.isAlpha = false := by
  intro c hc
  rw [natDigits_eq] at hc
  by_cases hn : n = 0
  · simp [hn] at hc
    subst hc
    decide
  · simp [hn] at hc
    obtain ⟨d, hd, hdc⟩ := hc
    exact hdc ▸ digitChar_not_alpha (Nat.digits_lt_base (by norm_num) hd)

theorem natDigits_isDigit {n : Nat} : ∀ c ∈ natDigits n, c.isDigit = true := by
  intro c hc
  rw [natDigits_eq] at hc
  by_cases hn : n = 0
  · simp [hn] at hc
    subst hc
    decide
  · simp [hn] at hc
    obtain ⟨d, hd, hdc⟩ := hc
    exact hdc ▸ digitChar_isDigit (Nat.digits_lt_base (by norm_num) hd)

theorem padZeros_isDigit {l : List Char} (hl : ∀ c ∈ l, c.isDigit = true) (n : Nat) :
    ∀ c ∈ padZeros l n, c.isDigit = true := by
  intro c hc
  unfold padZeros at hc
  rcases List.mem_append.mp hc with h | h
  · rw [List.eq_of_mem_replicate h]
    decide
  · exact hl c h

theorem renderDec_not_alpha (d : Dec) : ∀ c ∈ renderDec d, c.isAlpha = false := by
  intro c hc
  unfold renderDec at hc
  rcases List.mem_append.mp hc with h | h
  · by_cases hm : d.mant < 0
    · rw [if_pos hm] at h
      simp at h
      subst h
      decide
    · rw [if_neg hm] at h
      simp at h
  · by_cases hf : d.frac = 0
    · rw [if_pos hf] at h
      exact natDigits_not_alpha c h
    · rw [if_neg hf] at h
      rcases List.mem_append.mp h with h2 | h2
      · exact natDigits_not_alpha c h2
      · rcases List.mem_cons.mp h2 with h3 | h3
        · subst h3; decide
        · unfold padZeros at h3
          rcases List.mem_append.mp h3 with h4 | h4
          · rw [List.eq_of_mem_replicate h4]; decide
          · exact natDigits_not_alpha c h4

/-! ## Text substitution commutes with rendering -/

theorem pyReplace_renderP (t : Tag) (d : Dec) (ht : alphaTag t) :
    ∀ e : Expr, opsValid e → (∀ u ∈ varsOf e, alphaTag u) →
      (∀ u ∈ varsOf e, u ≠ t → countOcc u t = 0) →
      pyReplace (renderP e) t (renderDec d) = renderP (substVar e t d) := by
  intro e
  induction e with
  | num d' =>
    intro _ _ _
    simp only [renderP, substVar]
    exact pyReplace_of_countOcc_zero ht.1
      (countOcc_eq_zero_of_no_alpha (renderDec_not_alpha d') ht) _
  | var u =>
    intro _ _ hno
    by_cases hu : u = t
    · subst hu
      simp only [renderP, substVar, if_pos rfl]
      exact pyReplace_self ht.1 _
    · simp only [renderP, substVar, if_neg hu]
      exact pyReplace_of_countOcc_zero ht.1 (hno u (by simp [varsOf]) hu) _
  | bin op l r ihl ihr =>
    intro hops hvars hno
    have hopa : op.isAlpha = false := by
      rcases hops.1 with h | h | h | h <;> subst h <;> decide
    have hvl : ∀ u ∈ varsOf l, alphaTag u := fun u hu => hvars u (by simp [varsOf, hu])
    have hvr : ∀ u ∈ varsOf r, alphaTag u := fun u hu => hvars u (by simp [varsOf, hu])
    have hnl : ∀ u ∈ varsOf l, u ≠ t → countOcc u t = 0 :=
      fun u hu => hno u (by simp [varsOf, hu])
    have hnr : ∀ u ∈ varsOf r, u ≠ t → countOcc u t = 0 :=
      fun u hu => hno u (by simp [varsOf, hu])
    simp only [renderP, substVar]
    rw [pyReplace_cons '(' _ t (renderDec d) ht.1,
      if_neg (not_isPrefixOf_of_head_not_alpha ht (by decide) _)]
    rw [pyReplace_append_sep ht hopa (renderP l).length (renderP l) _ (renderDec d)
      (le_refl _)]
    rw [pyReplace_append_sep ht (c := ')') (by decide) (renderP r).length (renderP r) []
      (renderDec d) (le_refl _)]
    rw [pyReplace_nil t (renderDec d) ht.1]
    rw [ihl hops.2.1 hvl hnl, ihr hops.2.2 hvr hnr]

theorem varsOf_substVar {e : Expr} {t : Tag} {d : Dec} :
    ∀ u ∈ varsOf (substVar e t d), u ∈ varsOf e ∧ u ≠ t := by
  induction e with
  | num d' => intro u hu; simp [substVar, varsOf] at hu
  | var v =>
    intro u hu
    by_cases hv : v = t
    · simp [substVar, hv, varsOf] at hu
    · simp [substVar, hv, varsOf] at hu
      subst hu
      exact ⟨by simp [varsOf], hv⟩
  | bin op l r ihl ihr =>
    intro u hu
    simp only [substVar, varsOf, List.mem_append] at hu
    rcases hu with hu | hu
    · obtain ⟨h1, h2⟩ := ihl u hu
      exact ⟨by simp [varsOf, h1], h2⟩
    · obtain ⟨h1, h2⟩ := ihr u hu
      exact ⟨by simp [varsOf, h1], h2⟩

theorem opsValid_substVar {e : Expr} {t : Tag} {d : Dec} (h : opsValid e) :
    opsValid (substVar e t d) := by
  induction e with
  | num d' => simp [substVar, opsValid]
  | var v =>
    by_cases hv : v = t <;> simp [substVar, hv, opsValid]
  | bin op l r ihl ihr =>
    exact ⟨h.1, ihl h.2.1, ihr h.2.2⟩

/-- Text substitution of a whole assignment, performed tag by tag as in
`__doCalculation`, renders the syntax-tree substitution. -/
theorem stringSubstAll_renderP :
    ∀ (pairs : List (Tag × Dec)) (e : Expr), opsValid e →
      (∀ u ∈ varsOf e, alphaTag u) →
      (∀ p ∈ pairs, alphaTag p.1) →
      (∀ u ∈ varsOf e, ∀ p ∈ pairs, u ≠ p.1 → countOcc u p.1 = 0) →
      stringSubstAll (renderP e) pairs = renderP (substAllAST e pairs) := by
  intro pairs
  induction pairs with
  | nil => intro e _ _ _ _; simp [stringSubstAll, substAllAST]
  | cons p rest ih =>
    intro e hops hvars htags hno
    have hstep := pyReplace_renderP p.1 p.2 (htags p (by simp)) e hops hvars
      (fun u hu hne => hno u hu p (by simp) hne)
    have h1 : stringSubstAll (renderP e) (p :: rest) =
        stringSubstAll (pyReplace (renderP e) p.1 (renderDec p.2)) rest := by
      simp [stringSubstAll]
    have h2 : substAllAST e (p :: rest) = substAllAST (substVar e p.1 p.2) rest := by
      simp [substAllAST]
    rw [h1, h2, hstep]
    exact ih (substVar e p.1 p.2) (opsValid_substVar hops)
      (fun u hu => hvars u (varsOf_substVar u hu).1)
      (fun q hq => htags q (by simp [hq]))
      (fun u hu q hq hne => hno u (varsOf_substVar u hu).1 q (by simp [hq]) hne)

/-! ## Parsing a rendered decimal back -/

theorem digitChar_val {d : Nat} (hd : d < 10) : (digitChar d).toNat - 48 = d := by
  interval_cases d <;> decide

theorem parseDigits_stop (acc : Nat) (rest : List Char)
    (h : ∀ c, rest.head? = some c → c.isDigit = false) :
    parseDigits acc rest = (acc, 0, rest) := by
  cases rest with
  | nil => simp [parseDigits]
  | cons c cs =>
    have := h c (by simp)
    simp [parseDigits, this]

theorem digitsVal_shift (L : List Char) :
    ∀ a, L.foldl (fun a c => a * 10 + (c.toNat - 48)) a =
      a * 10 ^ L.length + digitsVal L := by
  induction L with
  | nil => intro a; simp [digitsVal]
  | cons c L ih =>
    intro a
    have h1 : digitsVal (c :: L) = (c.toNat - 48) * 10 ^ L.length + digitsVal L := by
      unfold digitsVal
      simp only [List.foldl_cons]
      rw [ih (0 * 10 + (c.toNat - 48))]
      unfold digitsVal
      ring
    rw [List.foldl_cons, ih (a * 10 + (c.toNat - 48)), h1]
    simp only [List.length_cons]
    ring

theorem parseDigits_run (L : List Char) (hL : ∀ c ∈ L, c.isDigit = true)
    (rest : List Char) (hrest : ∀ c, rest.head? = some c → c.isDigit = false) :
    ∀ acc, parseDigits acc (L ++ rest) =
      (acc * 10 ^ L.length + digitsVal L, L.length, rest) := by
  induction L with
  | nil =>
    intro acc
    rw [List.nil_append, parseDigits_stop acc rest hrest]
    simp [digitsVal]
  | cons c L ih =>
    intro acc
    have hc := hL c (by simp)
    have hL' : ∀ x ∈ L, x.isDigit = true := fun x hx => hL x (by simp [hx])
    have : (c :: L) ++ rest = c :: (L ++ rest) := by simp
    rw [this]
    simp only [parseDigits, hc, if_true]
    rw [ih hL' (acc * 10 + (c.toNat - 48))]
    have h1 : digitsVal (c :: L) = (c.toNat - 48) * 10 ^ L.length + digitsVal L := by
      unfold digitsVal
      simp only [List.foldl_cons]
      rw [digitsVal_shift L (0 * 10 + (c.toNat - 48))]
      unfold digitsVal
      ring
    simp only [h1, List.length_cons]
    congr 1
    ring

theorem digitsVal_map_digitChar (ds : List Nat) (hds : ∀ d ∈ ds, d < 10) :
    digitsVal (ds.reverse.map digitChar) = Nat.ofDigits 10 ds := by
  induction ds with
  | nil => simp [digitsVal, Nat.ofDigits]
  | cons d ds ih =>
    have hd := hds d (by simp)
    have hds' : ∀ x ∈ ds, x < 10 := fun x hx => hds x (by simp [hx])
    rw [List.reverse_cons, List.map_append]
    unfold digitsVal
    rw [List.foldl_append]
    have h1 : List.foldl (fun a c => a * 10 + (c.toNat - 48)) 0 (ds.reverse.map digitChar) =
        Nat.ofDigits 10 ds := ih hds'
    rw [h1]
    simp [Nat.ofDigits_cons, digitChar_val hd]
    ring

theorem digitsVal_natDigits (n : Nat) : digitsVal (natDigits n) = n := by
  rw [natDigits_eq]
  by_cases hn : n = 0
  · subst hn
    simp
    decide
  · rw [if_neg hn]
    rw [digitsVal_map_digitChar _ (fun d hd => Nat.digits_lt_base (by norm_num) hd)]
    exact Nat.ofDigits_digits 10 n

theorem digitsVal_padZeros (l : List Char) (n : Nat) :
    digitsVal (padZeros l n) = digitsVal l := by
  unfold padZeros digitsVal
  rw [List.foldl_append]
  congr 1
  induction (n - l.length) with
  | zero => simp
  | succ k ih => simpa using ih

theorem natDigits_ne_nil (n : Nat) : natDigits n ≠ [] := by
  rw [natDigits_eq]
  by_cases hn : n = 0
  · simp [hn]
  · rw [if_neg hn]
    simp [Nat.digits_ne_nil_iff_ne_zero.mpr hn]

theorem natDigits_length_le {n k : Nat} (h : n < 10 ^ k) (hk : 1 ≤ k) :
    (natDigits n).length ≤ k := by
  rw [natDigits_eq]
  by_cases hn : n = 0
  · simp [hn]
    omega
  · rw [if_neg hn]
    simp only [List.length_map, List.length_reverse]
    by_contra hgt
    have hlen : k + 1 ≤ (Nat.digits 10 n).length := by omega
    have h1 : 10 ^ (Nat.digits 10 n).length ≤ 10 * n :=
      Nat.base_pow_length_digits_le 10 n (by norm_num) hn
    have h2 : (10 : Nat) ^ (k + 1) ≤ 10 ^ (Nat.digits 10 n).length :=
      Nat.pow_le_pow_right (by norm_num) hlen
    have h3 : (10 : Nat) ^ (k + 1) = 10 * 10 ^ k := by ring
    omega

theorem padZeros_length_of_le {l : List Char} {n : Nat} (h : l.length ≤ n) :
    (padZeros l n).length = n := by
  unfold padZeros
  simp
  omega

/-- Parsing a rendered decimal recovers the decimal exactly. -/
theorem parseNum_renderDec (d : Dec) (rest : List Char) (hrest : numRestOK rest) :
    parseNum (renderDec d ++ rest) = some (d, rest) := by
  have hrd : ∀ c, rest.head? = some c → c.isDigit = false := fun c hc => (hrest c hc).1
  have hdotfree : ∀ c, rest.head? = some c → c ≠ '.' := fun c hc => (hrest c hc).2
  obtain ⟨c0, cs0, hnd⟩ : ∃ c cs, natDigits (if d.frac = 0 then d.mant.natAbs
      else d.mant.natAbs / 10 ^ d.frac) = c :: cs := by
    rcases hne : natDigits (if d.frac = 0 then d.mant.natAbs
      else d.mant.natAbs / 10 ^ d.frac) with _ | ⟨c, cs⟩
    · exact absurd hne (natDigits_ne_nil _)
    · exact ⟨c, cs, rfl⟩
  have hc0 : c0.isDigit = true := by
    have := natDigits_isDigit (n := if d.frac = 0 then d.mant.natAbs
      else d.mant.natAbs / 10 ^ d.frac) c0 (by rw [hnd]; simp)
    exact this
  have hc0ne : c0 ≠ '-' := by
    intro hc
    rw [hc] at hc0
    simp at hc0
  -- the integer-part digit run followed by the tail of the literal
  by_cases hf : d.frac = 0
  · -- no fractional part: the literal is sign ++ digits
    have hbody : renderDec d ++ rest =
        (if d.mant < 0 then ['-'] else []) ++ (natDigits d.mant.natAbs ++ rest) := by
      unfold renderDec
      rw [if_pos hf]
      simp
    have hrun := parseDigits_run (natDigits d.mant.natAbs)
      (natDigits_isDigit) rest hrd 0
    rw [digitsVal_natDigits] at hrun
    simp only [zero_mul, zero_add] at hrun
    have hnd0 : natDigits d.mant.natAbs = c0 :: cs0 := by
      rw [if_pos hf] at hnd
      exact hnd
    by_cases hm : d.mant < 0
    · rw [hbody, if_pos hm]
      simp only [parseNum, List.singleton_append, hnd0]
      rw [List.cons_append]
      simp only [if_pos rfl, hc0, if_true]
      rw [← List.cons_append, ← hnd0, hrun]
      have habs : ((d.mant.natAbs : Int)) = -d.mant :=
        Int.ofNat_natAbs_of_nonpos (le_of_lt hm)
      cases hr : rest with
      | nil =>
        simp [habs, hf.symm]
      | cons c2 s3 =>
        have hne : c2 ≠ '.' := hdotfree c2 (by simp [hr])
        simp [hne, habs, hf.symm]
    · rw [hbody, if_neg hm]
      rw [List.nil_append, hnd0, List.cons_append]
      simp only [parseNum, if_neg hc0ne, hc0, if_true]
      rw [← List.cons_append, ← hnd0, hrun]
      have habs : ((d.mant.natAbs : Int)) = d.mant :=
        Int.natAbs_of_nonneg (by omega)
      cases hr : rest with
      | nil =>
        simp [habs, hf.symm]
      | cons c2 s3 =>
        have hne : c2 ≠ '.' := hdotfree c2 (by simp [hr])
        simp [hne, habs, hf.symm]
  · -- fractional part of exactly d.frac digits
    have hfrac1 : 1 ≤ d.frac := by omega
    have hfplt : d.mant.natAbs % 10 ^ d.frac < 10 ^ d.frac :=
      Nat.mod_lt _ (by positivity)
    have hpadlen : (padZeros (natDigits (d.mant.natAbs % 10 ^ d.frac)) d.frac).length =
        d.frac := padZeros_length_of_le (natDigits_length_le hfplt hfrac1)
    have hpaddig : ∀ c ∈ padZeros (natDigits (d.mant.natAbs % 10 ^ d.frac)) d.frac,
        c.isDigit = true := padZeros_isDigit natDigits_isDigit d.frac
    have hpadval : digitsVal (padZeros (natDigits (d.mant.natAbs % 10 ^ d.frac)) d.frac) =
        d.mant.natAbs % 10 ^ d.frac := by
      rw [digitsVal_padZeros, digitsVal_natDigits]
    have hbody : renderDec d ++ rest =
        (if d.mant < 0 then ['-'] else []) ++
          (natDigits (d.mant.natAbs / 10 ^ d.frac) ++
            ('.' :: (padZeros (natDigits (d.mant.natAbs % 10 ^ d.frac)) d.frac ++ rest))) := by
      unfold renderDec
      rw [if_neg hf]
      simp
    have hrun := parseDigits_run (natDigits (d.mant.natAbs / 10 ^ d.frac))
      (natDigits_isDigit)
      ('.' :: (padZeros (natDigits (d.mant.natAbs % 10 ^ d.frac)) d.frac ++ rest))
      (by intro c hc; simp at hc; subst hc; decide) 0
    rw [digitsVal_natDigits] at hrun
    simp only [zero_mul, zero_add] at hrun
    have hrun2 := parseDigits_run
      (padZeros (natDigits (d.mant.natAbs % 10 ^ d.frac)) d.frac) hpaddig rest hrd 0
    rw [hpadval, hpadlen] at hrun2
    simp only [zero_mul, zero_add] at hrun2
    have hnd0 : natDigits (d.mant.natAbs / 10 ^ d.frac) = c0 :: cs0 := by
      rw [if_neg hf] at hnd
      exact hnd
    have hmval : (d.mant.natAbs / 10 ^ d.frac) * 10 ^ d.frac +
        d.mant.natAbs % 10 ^ d.frac = d.mant.natAbs := by
      rw [Nat.mul_comm]
      exact Nat.div_add_mod _ _
    by_cases hm : d.mant < 0
    · rw [hbody, if_pos hm]
      simp only [parseNum, List.singleton_append, hnd0]
      rw [List.cons_append]
      simp only [if_pos rfl, hc0, if_true]
      rw [← List.cons_append, ← hnd0, hrun]
      simp only [if_pos rfl]
      rw [hrun2]
      have habs : ((d.mant.natAbs : Int)) = -d.mant :=
        Int.ofNat_natAbs_of_nonpos (le_of_lt hm)
      simp [hmval, habs]
    · rw [hbody, if_neg hm]
      rw [List.nil_append, hnd0, List.cons_append]
      simp only [parseNum, if_neg hc0ne, hc0, if_true]
      rw [← List.cons_append, ← hnd0, hrun]
      simp only [if_pos rfl]
      rw [hrun2]
      have habs : ((d.mant.natAbs : Int)) = d.mant :=
        Int.natAbs_of_nonneg (by omega)
      simp [hmval, habs]

/-! ## Parser round trip on rendered expressions -/

theorem headOK_numRestOK {rest : List Char} (h : headOK rest) : numRestOK rest := by
  intro c hc
  rcases h c hc with h1 | h1 | h1 | h1 | h1 <;> subst h1 <;> exact ⟨by decide, by decide⟩

theorem headStop_headOK {rest : List Char} (h : headStop rest) : headOK rest := by
  intro c hc
  exact Or.inl (h c hc)

theorem renderDec_head_ne_lparen (d : Dec) :
    ∃ c cs, renderDec d = c :: cs ∧ ¬(c = '(') := by
  unfold renderDec
  by_cases hm : d.mant < 0
  · rw [if_pos hm]
    exact ⟨'-', _, rfl, by decide⟩
  · rw [if_neg hm, List.nil_append]
    by_cases hf : d.frac = 0
    · rw [if_pos hf]
      obtain ⟨c, cs, hnd⟩ : ∃ c cs, natDigits d.mant.natAbs = c :: cs := by
        rcases hne : natDigits d.mant.natAbs with _ | ⟨c, cs⟩
        · exact absurd hne (natDigits_ne_nil _)
        · exact ⟨c, cs, rfl⟩
      have hdig : c.isDigit = true := natDigits_isDigit c (by rw [hnd]; simp)
      refine ⟨c, cs, hnd, ?_⟩
      intro hc
      rw [hc] at hdig
      simp at hdig
    · rw [if_neg hf]
      obtain ⟨c, cs, hnd⟩ : ∃ c cs,
          natDigits (d.mant.natAbs / 10 ^ d.frac) = c :: cs := by
        rcases hne : natDigits (d.mant.natAbs / 10 ^ d.frac) with _ | ⟨c, cs⟩
        · exact absurd hne (natDigits_ne_nil _)
        · exact ⟨c, cs, rfl⟩
      have hdig : c.isDigit = true := natDigits_isDigit c (by rw [hnd]; simp)
      refine ⟨c, cs ++ '.' :: padZeros (natDigits (d.mant.natAbs % 10 ^ d.frac)) d.frac,
        by rw [hnd]; simp, ?_⟩
      intro hc
      rw [hc] at hdig
      simp at hdig

theorem parseGo_termLoop_stop (f : Nat) (acc : Expr) (s : List Char)
    (h : ∀ c, s.head? = some c → ¬(c = '*' ∨ c = '/')) :
    parseGo (f + 1) (.termLoop acc) s = some (acc, s) := by
  cases s with
  | nil => simp [parseGo]
  | cons c rest =>
    have := h c (by simp)
    simp [parseGo, this]

theorem parseGo_exprLoop_stop (f : Nat) (acc : Expr) (s : List Char)
    (h : ∀ c, s.head? = some c → ¬(c = '+' ∨ c = '-')) :
    parseGo (f + 1) (.exprLoop acc) s = some (acc, s) := by
  cases s with
  | nil => simp [parseGo]
  | cons c rest =>
    have := h c (by simp)
    simp [parseGo, this]

theorem parseGo_term_eq (f : Nat) (s : List Char) (e2 : Expr) (r2 : List Char)
    (h : parseGo f .factor s = some (e2, r2)) :
    parseGo (f + 1) .term s = parseGo f (.termLoop e2) r2 := by
  simp [parseGo, h]

theorem parseGo_expr_eq (f : Nat) (s : List Char) (e2 : Expr) (r2 : List Char)
    (h : parseGo f .term s = some (e2, r2)) :
    parseGo (f + 1) .expr s = parseGo f (.exprLoop e2) r2 := by
  simp [parseGo, h]

theorem parseGo_termLoop_cons (f : Nat) (acc : Expr) (c : Char) (rest : List Char)
    (hc : c = '*' ∨ c = '/') (e2 : Expr) (r2 : List Char)
    (h : parseGo f .factor rest = some (e2, r2)) :
    parseGo (f + 1) (.termLoop acc) (c :: rest) =
      parseGo f (.termLoop (.bin c acc e2)) r2 := by
  simp [parseGo, hc, h]

theorem parseGo_exprLoop_cons (f : Nat) (acc : Expr) (c : Char) (rest : List Char)
    (hc : c = '+' ∨ c = '-') (e2 : Expr) (r2 : List Char)
    (h : parseGo f .term rest = some (e2, r2)) :
    parseGo (f + 1) (.exprLoop acc) (c :: rest) =
      parseGo f (.exprLoop (.bin c acc e2)) r2 := by
  simp [parseGo, hc, h]

/-- The inner round trip: parsing the body of a rendered binary node, up
to the closing parenthesis. -/
theorem parseGo_expr_inner (l r : Expr) (op : Char)
    (hop : op = '+' ∨ op = '-' ∨ op = '*' ∨ op = '/')
    (hl : ∀ rest f, headOK rest → fuelB l ≤ f →
      parseGo f .factor (renderP l ++ rest) = some (l, rest))
    (hr : ∀ rest f, headOK rest → fuelB r ≤ f →
      parseGo f .factor (renderP r ++ rest) = some (r, rest))
    (rest : List Char) :
    ∀ f, fuelB l + fuelB r + 6 ≤ f →
      parseGo f .expr (renderP l ++ op :: (renderP r ++ ')' :: rest)) =
        some (.bin op l r, ')' :: rest) := by
  intro f hf
  have hsl : 1 ≤ sizeE l := by cases l <;> simp [sizeE]
  have hsr : 1 ≤ sizeE r := by cases r <;> simp [sizeE]
  have hBl : 7 ≤ fuelB l := by unfold fuelB; omega
  have hBr : 7 ≤ fuelB r := by unfold fuelB; omega
  obtain ⟨f1, rfl⟩ : ∃ f1, f = f1 + 1 := ⟨f - 1, by omega⟩
  obtain ⟨f2, rfl⟩ : ∃ f2, f1 = f2 + 1 := ⟨f1 - 1, by omega⟩
  obtain ⟨f3, rfl⟩ : ∃ f3, f2 = f3 + 1 := ⟨f2 - 1, by omega⟩
  have hfactl : parseGo (f3 + 1)
      .factor (renderP l ++ (op :: (renderP r ++ ')' :: rest))) =
      some (l, op :: (renderP r ++ ')' :: rest)) := by
    apply hl
    · intro c hc
      simp at hc
      subst hc
      tauto
    · omega
  have hfactr : ∀ g, fuelB r ≤ g → parseGo g .factor (renderP r ++ ')' :: rest) =
      some (r, ')' :: rest) := by
    intro g hg
    apply hr
    · intro c hc
      simp at hc
      subst hc
      tauto
    · omega
  have hterm : ∀ g, fuelB r + 2 ≤ g → parseGo g .term (renderP r ++ ')' :: rest) =
      some (r, ')' :: rest) := by
    intro g hg
    obtain ⟨g1, rfl⟩ : ∃ g1, g = g1 + 1 := ⟨g - 1, by omega⟩
    rw [parseGo_term_eq g1 _ r _ (hfactr g1 (by omega))]
    obtain ⟨g2, rfl⟩ : ∃ g2, g1 = g2 + 1 := ⟨g1 - 1, by omega⟩
    exact parseGo_termLoop_stop g2 r _ (by intro c hc; simp at hc; subst hc; decide)
  rcases hop with hop | hop | hop | hop
  all_goals subst hop
  · -- '+': term loop stops at the operator, expr loop consumes it
    have htermX : parseGo (f3 + 2) .term (renderP l ++ '+' :: (renderP r ++ ')' :: rest)) =
        some (l, '+' :: (renderP r ++ ')' :: rest)) := by
      rw [parseGo_term_eq (f3 + 1) _ l _ hfactl]
      exact parseGo_termLoop_stop f3 l _ (by intro c hc; simp at hc; subst hc; decide)
    rw [parseGo_expr_eq (f3 + 2) _ l _ htermX]
    rw [parseGo_exprLoop_cons (f3 + 1) l '+' _ (by decide) r _ (hterm (f3 + 1) (by omega))]
    exact parseGo_exprLoop_stop f3 _ _ (by intro c hc; simp at hc; subst hc; decide)
  · -- '-'
    have htermX : parseGo (f3 + 2) .term (renderP l ++ '-' :: (renderP r ++ ')' :: rest)) =
        some (l, '-' :: (renderP r ++ ')' :: rest)) := by
      rw [parseGo_term_eq (f3 + 1) _ l _ hfactl]
      exact parseGo_termLoop_stop f3 l _ (by intro c hc; simp at hc; subst hc; decide)
    rw [parseGo_expr_eq (f3 + 2) _ l _ htermX]
    rw [parseGo_exprLoop_cons (f3 + 1) l '-' _ (by decide) r _ (hterm (f3 + 1) (by omega))]
    exact parseGo_exprLoop_stop f3 _ _ (by intro c hc; simp at hc; subst hc; decide)
  · -- '*': the term loop consumes the operator
    have htermX : parseGo (f3 + 2) .term (renderP l ++ '*' :: (renderP r ++ ')' :: rest)) =
        some (.bin '*' l r, ')' :: rest) := by
      rw [parseGo_term_eq (f3 + 1) _ l _ hfactl]
      rw [parseGo_termLoop_cons f3 l '*' _ (by decide) r _ (hfactr f3 (by omega))]
      obtain ⟨f4, rfl⟩ : ∃ f4, f3 = f4 + 1 := ⟨f3 - 1, by omega⟩
      exact parseGo_termLoop_stop f4 _ _ (by intro c hc; simp at hc; subst hc; decide)
    rw [parseGo_expr_eq (f3 + 2) _ _ _ htermX]
    obtain ⟨f4, rfl⟩ : ∃ f4, f3 = f4 + 1 := ⟨f3 - 1, by omega⟩
    exact parseGo_exprLoop_stop (f4 + 1) (.bin '*' l r) (')' :: rest)
      (by intro c hc; simp at hc; subst hc; decide)
  · -- '/'
    have htermX : parseGo (f3 + 2) .term (renderP l ++ '/' :: (renderP r ++ ')' :: rest)) =
        some (.bin '/' l r, ')' :: rest) := by
      rw [parseGo_term_eq (f3 + 1) _ l _ hfactl]
      rw [parseGo_termLoop_cons f3 l '/' _ (by decide) r _ (hfactr f3 (by omega))]
      obtain ⟨f4, rfl⟩ : ∃ f4, f3 = f4 + 1 := ⟨f3 - 1, by omega⟩
      exact parseGo_termLoop_stop f4 _ _ (by intro c hc; simp at hc; subst hc; decide)
    rw [parseGo_expr_eq (f3 + 2) _ _ _ htermX]
    obtain ⟨f4, rfl⟩ : ∃ f4, f3 = f4 + 1 := ⟨f3 - 1, by omega⟩
    exact parseGo_exprLoop_stop (f4 + 1) (.bin '/' l r) (')' :: rest)
      (by intro c hc; simp at hc; subst hc; decide)

/-- A parsed factor recovers a rendered closed expression exactly. -/
theorem parseGo_factor_renderP :
    ∀ e : Expr, closedE e → opsValid e → ∀ rest f, headOK rest → fuelB e ≤ f →
      parseGo f .factor (renderP e ++ rest) = some (e, rest) := by
  intro e
  induction e with
  | num d =>
    intro _ _ rest f hrest hf
    have h7 : 7 ≤ f := by
      have : fuelB (Expr.num d) = 7 := by simp [fuelB, sizeE]
      omega
    obtain ⟨f1, rfl⟩ : ∃ f1, f = f1 + 1 := ⟨f - 1, by omega⟩
    obtain ⟨c, cs, hrd, hcne⟩ := renderDec_head_ne_lparen d
    have hshape : renderP (Expr.num d) ++ rest = c :: (cs ++ rest) := by
      simp [renderP, hrd]
    rw [hshape]
    simp only [parseGo, if_neg hcne]
    have : c :: (cs ++ rest) = renderDec d ++ rest := by simp [hrd]
    rw [this, parseNum_renderDec d rest (headOK_numRestOK hrest)]
    rfl
  | var t =>
    intro hclosed _ rest f hrest hf
    exact absurd hclosed (by simp [closedE, varsOf])
  | bin op l r ihl ihr =>
    intro hclosed hops rest f hrest hf
    have hclosed2 : varsOf l = [] ∧ varsOf r = [] := by
      simpa [closedE, varsOf] using hclosed
    have hcl : closedE l := hclosed2.1
    have hcr : closedE r := hclosed2.2
    have hB : fuelB (Expr.bin op l r) = fuelB l + fuelB r + 7 := by
      simp [fuelB, sizeE]
      ring
    obtain ⟨f1, rfl⟩ : ∃ f1, f = f1 + 1 := ⟨f - 1, by omega⟩
    have hshape : renderP (Expr.bin op l r) ++ rest =
        '(' :: (renderP l ++ op :: (renderP r ++ ')' :: rest)) := by
      simp [renderP]
    rw [hshape]
    simp only [parseGo, if_pos rfl]
    rw [parseGo_expr_inner l r op hops.1 (fun rest f => ihl hcl hops.2.1 rest f)
      (fun rest f => ihr hcr hops.2.2 rest f) rest f1 (by omega)]
    simp

/-- A rendered closed expression parses back to itself at the `expr`
level. -/
theorem parseGo_expr_renderP (e : Expr) (hclosed : closedE e) (hops : opsValid e)
    (rest : List Char) (hrest : headStop rest) (f : Nat) (hf : fuelB e + 4 ≤ f) :
    parseGo f .expr (renderP e ++ rest) = some (e, rest) := by
  have hsz : 1 ≤ sizeE e := by cases e <;> simp [sizeE]
  have hB : 7 ≤ fuelB e := by unfold fuelB; omega
  obtain ⟨f1, rfl⟩ : ∃ f1, f = f1 + 1 := ⟨f - 1, by omega⟩
  obtain ⟨f2, rfl⟩ : ∃ f2, f1 = f2 + 1 := ⟨f1 - 1, by omega⟩
  obtain ⟨f3, rfl⟩ : ∃ f3, f2 = f3 + 1 := ⟨f2 - 1, by omega⟩
  have hfact : parseGo (f3 + 1) .factor (renderP e ++ rest) = some (e, rest) :=
    parseGo_factor_renderP e hclosed hops rest (f3 + 1) (headStop_headOK hrest) (by omega)
  have hterm : parseGo (f3 + 2) .term (renderP e ++ rest) = some (e, rest) := by
    rw [parseGo_term_eq (f3 + 1) _ e rest hfact]
    exact parseGo_termLoop_stop f3 e rest
      (by intro c hc; have := hrest c hc; subst this; decide)
  rw [parseGo_expr_eq (f3 + 2) _ e rest hterm]
  exact parseGo_exprLoop_stop (f3 + 1) e rest
    (by intro c hc; have := hrest c hc; subst this; decide)

theorem renderP_length_ge (e : Expr) (hclosed : closedE e) :
    2 * sizeE e ≤ (renderP e).length + 1 := by
  induction e with
  | num d =>
    have h1 : renderDec d ≠ [] := by
      obtain ⟨c, cs, hrd, _⟩ := renderDec_head_ne_lparen d
      simp [hrd]
    have : 1 ≤ (renderDec d).length := by
      cases hrd : renderDec d
      · exact absurd hrd h1
      · simp
    simp [renderP, sizeE]
    omega
  | var t => exact absurd hclosed (by simp [closedE, varsOf])
  | bin op l r ihl ihr =>
    have hclosed2 : varsOf l = [] ∧ varsOf r = [] := by
      simpa [closedE, varsOf] using hclosed
    have h1 := ihl hclosed2.1
    have h2 := ihr hclosed2.2
    simp only [renderP, sizeE, List.length_cons, List.length_append]
    simp at h1 h2 ⊢
    omega

/-- `parseFull` recovers a rendered closed expression. -/
theorem parseFull_renderP (e : Expr) (hclosed : closedE e) (hops : opsValid e) :
    parseFull (renderP e) = some e := by
  have hsz : 1 ≤ sizeE e := by cases e <;> simp [sizeE]
  have hlen := renderP_length_ge e hclosed
  have hfuel : fuelB e + 4 ≤ 6 * (renderP e).length + 6 := by
    unfold fuelB
    omega
  have hexp := parseGo_expr_renderP e hclosed hops [] (by intro c hc; simp at hc)
    (6 * (renderP e).length + 6) hfuel
  rw [List.append_nil] at hexp
  unfold parseFull
  rw [hexp]

/-- `eval` of a rendered closed expression is exact evaluation. -/
theorem pyEval_renderP (e : Expr) (hclosed : closedE e) (hops : opsValid e) :
    pyEval (renderP e) = evalClosed e := by
  unfold pyEval
  rw [parseFull_renderP e hclosed hops]

/-! ## Substitution at the syntax-tree level and evaluation -/

theorem dget_some_mem {α β : Type} [DecidableEq α] {l : List (α × β)} {k : α} {v : β}
    (h : dget l k = some v) : (k, v) ∈ l := by
  induction l with
  | nil => simp [dget] at h
  | cons p rest ih =>
    by_cases hp : p.1 = k
    · simp [dget, hp] at h
      have : p = (k, v) := by
        rcases p with ⟨a, b⟩
        simp at hp h
        simp [hp, h]
      rw [this]
      exact List.mem_cons_self _ _
    · simp [dget, hp] at h
      simp [ih h]

theorem mem_dget_isSome {α β : Type} [DecidableEq α] {l : List (α × β)} {k : α} {v : β}
    (h : (k, v) ∈ l) : ∃ w, dget l k = some w := by
  induction l with
  | nil => simp at h
  | cons p rest ih =>
    by_cases hp : p.1 = k
    · exact ⟨p.2, by simp [dget, hp]⟩
    · rcases List.mem_cons.mp h with h1 | h1
      · exact absurd (by rw [← h1]) hp
      · obtain ⟨w, hw⟩ := ih h1
        exact ⟨w, by simp [dget, hp, hw]⟩

theorem substAllAST_num (d : Dec) (pairs : List (Tag × Dec)) :
    substAllAST (.num d) pairs = .num d := by
  induction pairs with
  | nil => simp [substAllAST]
  | cons p rest ih =>
    have h : substAllAST (Expr.num d) (p :: rest) =
        substAllAST (substVar (.num d) p.1 p.2) rest := by
      simp [substAllAST]
    rw [h]
    simpa [substVar] using ih

theorem substAllAST_bin (op : Char) (pairs : List (Tag × Dec)) :
    ∀ l r : Expr, substAllAST (.bin op l r) pairs =
      .bin op (substAllAST l pairs) (substAllAST r pairs) := by
  induction pairs with
  | nil => intro l r; simp [substAllAST]
  | cons p rest ih =>
    intro l r
    have h : substAllAST (Expr.bin op l r) (p :: rest) =
        substAllAST (substVar (.bin op l r) p.1 p.2) rest := by
      simp [substAllAST]
    rw [h]
    have h2 : substVar (Expr.bin op l r) p.1 p.2 =
        .bin op (substVar l p.1 p.2) (substVar r p.1 p.2) := rfl
    rw [h2, ih]
    have hl : substAllAST (substVar l p.1 p.2) rest = substAllAST l (p :: rest) := by
      simp [substAllAST]
    have hrr : substAllAST (substVar r p.1 p.2) rest = substAllAST r (p :: rest) := by
      simp [substAllAST]
    rw [hl, hrr]

theorem substAllAST_var (t : Tag) (pairs : List (Tag × Dec)) :
    substAllAST (.var t) pairs =
      (match dget pairs t with
       | some d => .num d
       | none => .var t) := by
  induction pairs with
  | nil => simp [substAllAST, dget]
  | cons p rest ih =>
    have h : substAllAST (Expr.var t) (p :: rest) =
        substAllAST (substVar (.var t) p.1 p.2) rest := by
      simp [substAllAST]
    rw [h]
    by_cases hp : p.1 = t
    · have h2 : substVar (Expr.var t) p.1 p.2 = .num p.2 := by
        simp [substVar, hp]
      rw [h2, substAllAST_num]
      simp [dget, hp]
    · have h2 : substVar (Expr.var t) p.1 p.2 = .var t := by
        have : ¬(t = p.1) := fun hc => hp hc.symm
        simp [substVar, this]
      rw [h2, ih]
      simp [dget, hp]

/-- Evaluating the fully substituted expression equals direct evaluation
with the tags bound as variables. -/
theorem evalClosed_substAllAST (pairs : List (Tag × Dec)) (env : Tag → ℚ) :
    ∀ e : Expr,
      (∀ t ∈ varsOf e, ∃ d, dget pairs t = some d ∧ env t = d.toQ) →
      evalClosed (substAllAST e pairs) = evalWith env e := by
  intro e
  induction e with
  | num d => intro _; rw [substAllAST_num]; rfl
  | var t =>
    intro hv
    obtain ⟨d, hd, he⟩ := hv t (by simp [varsOf])
    rw [substAllAST_var, hd]
    simp [evalClosed, evalWith, he]
  | bin op l r ihl ihr =>
    intro hv
    have hvl : ∀ t ∈ varsOf l, ∃ d, dget pairs t = some d ∧ env t = d.toQ :=
      fun t ht => hv t (by simp [varsOf, ht])
    have hvr : ∀ t ∈ varsOf r, ∃ d, dget pairs t = some d ∧ env t = d.toQ :=
      fun t ht => hv t (by simp [varsOf, ht])
    rw [substAllAST_bin]
    show (match evalClosed (substAllAST l pairs), evalClosed (substAllAST r pairs) with
      | .ok a, .ok b => applyOp op a b
      | .error e, _ => .error e
      | _, .error e => .error e) = evalWith env (.bin op l r)
    rw [ihl hvl, ihr hvr]
    rfl

theorem varsOf_substAllAST (pairs : List (Tag × Dec)) :
    ∀ (e : Expr) (t : Tag), t ∈ varsOf (substAllAST e pairs) →
      t ∈ varsOf e ∧ ∀ p ∈ pairs, t ≠ p.1 := by
  induction pairs with
  | nil =>
    intro e t ht
    exact ⟨by simpa [substAllAST] using ht, by simp⟩
  | cons q rest ih =>
    intro e t ht
    have h : substAllAST e (q :: rest) = substAllAST (substVar e q.1 q.2) rest := by
      simp [substAllAST]
    rw [h] at ht
    obtain ⟨h1, h2⟩ := ih (substVar e q.1 q.2) t ht
    obtain ⟨h3, h4⟩ := varsOf_substVar t h1
    refine ⟨h3, ?_⟩
    intro p hp
    rcases List.mem_cons.mp hp with hp1 | hp1
    · rw [hp1]
      exact h4
    · exact h2 p hp1

theorem opsValid_substAllAST (pairs : List (Tag × Dec)) :
    ∀ e : Expr, opsValid e → opsValid (substAllAST e pairs) := by
  induction pairs with
  | nil => intro e he; simpa [substAllAST] using he
  | cons q rest ih =>
    intro e he
    have h : substAllAST e (q :: rest) = substAllAST (substVar e q.1 q.2) rest := by
      simp [substAllAST]
    rw [h]
    exact ih _ (opsValid_substVar he)

theorem closedE_substAllAST (pairs : List (Tag × Dec)) (e : Expr)
    (hvars : ∀ t ∈ varsOf e, ∃ d, (t, d) ∈ pairs) :
    closedE (substAllAST e pairs) := by
  unfold closedE
  rw [List.eq_nil_iff_forall_not_mem]
  intro t ht
  obtain ⟨h1, h2⟩ := varsOf_substAllAST pairs e t ht
  obtain ⟨d, hd⟩ := hvars t h1
  exact h2 (t, d) hd rfl

/-! ## Claim C8: substitution-based evaluation versus direct evaluation -/

/-- Claim C8 as stated is false: with expression `A+5` over tags `A` and
`5` — each appearing textually exactly once, neither a substring of the
other or of any numeric literal of the expression (there are none) — and
the assignment `A := 5.0`, `5 := 2.0`, the substituted text becomes
`(2.0.0+2.0)`, which no longer parses, while direct evaluation yields `7`.
The tag `5` ends up a substring of the substituted value literal `5.0`,
a case the claim's side conditions do not exclude. -/
theorem claim_C8_counterexample :
    countOcc (renderP (.bin '+' (.var ['A']) (.var ['5']))) ['A'] = 1 ∧
    countOcc (renderP (.bin '+' (.var ['A']) (.var ['5']))) ['5'] = 1 ∧
    countOcc ['A'] ['5'] = 0 ∧ countOcc ['5'] ['A'] = 0 ∧
    numLits (.bin '+' (.var ['A']) (.var ['5'])) = [] ∧
    stringSubstAll (renderP (.bin '+' (.var ['A']) (.var ['5'])))
      [(['A'], ⟨50, 1⟩), (['5'], ⟨20, 1⟩)] =
      ['(', '2', '.', '0', '.', '0', '+', '2', '.', '0', ')'] ∧
    pyEval (stringSubstAll (renderP (.bin '+' (.var ['A']) (.var ['5'])))
      [(['A'], ⟨50, 1⟩), (['5'], ⟨20, 1⟩)]) = .error .syntaxError ∧
    evalWith (fun t => if t = ['A'] then (5 : ℚ) else 2)
      (.bin '+' (.var ['A']) (.var ['5'])) = .ok 7 := by
  refine ⟨by decide, by decide, by decide, by decide, by decide, by decide, ?_, ?_⟩
  · have hparse : parseFull (stringSubstAll (renderP (.bin '+' (.var ['A']) (.var ['5'])))
        [(['A'], ⟨50, 1⟩), (['5'], ⟨20, 1⟩)]) = none := by decide
    unfold pyEval
    rw [hparse]
  · have h5 : ¬((['5'] : List Char) = ['A']) := by decide
    norm_num [evalWith, applyOp, h5]

/-- Claim C8 (amended): for every arithmetic expression over a set of
channel tags that are nonempty purely-alphabetic identifiers, in which
each tag appears exactly once and no tag is a substring of another tag,
and for every complete numeric assignment to those tags, text-substitution
based evaluation (replace every tag occurrence by its printed value, in
assignment order, then evaluate) returns the same value as directly
evaluating the expression with the tags bound as variables to the same
values. -/
theorem claim_C8_amended
    (e : Expr) (pairs : List (Tag × Dec)) (env : Tag → ℚ)
    (hops : opsValid e)
    (halpha : ∀ p ∈ pairs, alphaTag p.1)
    (hvars : ∀ t ∈ varsOf e, ∃ d, (t, d) ∈ pairs)
    (_honce : ∀ p ∈ pairs, countOcc (renderP e) p.1 = 1)
    (hnosub : ∀ p ∈ pairs, ∀ q ∈ pairs, p.1 ≠ q.1 → countOcc p.1 q.1 = 0)
    (henv : ∀ p ∈ pairs, env p.1 = p.2.toQ) :
    pyEval (stringSubstAll (renderP e) pairs) = evalWith env e := by
  have hvarsAlpha : ∀ t ∈ varsOf e, alphaTag t := by
    intro t ht
    obtain ⟨d, hd⟩ := hvars t ht
    exact halpha (t, d) hd
  have hno : ∀ u ∈ varsOf e, ∀ p ∈ pairs, u ≠ p.1 → countOcc u p.1 = 0 := by
    intro u hu p hp hne
    obtain ⟨d, hd⟩ := hvars u hu
    exact hnosub (u, d) hd p hp hne
  rw [stringSubstAll_renderP pairs e hops hvarsAlpha halpha hno]
  rw [pyEval_renderP _ (closedE_substAllAST pairs e hvars)
    (opsValid_substAllAST pairs e hops)]
  apply evalClosed_substAllAST
  intro t ht
  obtain ⟨d0, hd0⟩ := hvars t ht
  obtain ⟨w, hw⟩ := mem_dget_isSome hd0
  exact ⟨w, hw, henv (t, w) (dget_some_mem hw)⟩

/-- Witness for the amended C8 on the concrete scenario expression `A+B`
with `A := 3.0`, `B := 4.0`. -/
theorem claim_C8_witness :
    pyEval (stringSubstAll (renderP (.bin '+' (.var ['A']) (.var ['B'])))
        [(['A'], ⟨30, 1⟩), (['B'], ⟨40, 1⟩)]) =
      evalWith (fun t => if t = ['A'] then (3 : ℚ) else 4)
        (.bin '+' (.var ['A']) (.var ['B'])) ∧
    evalWith (fun t => if t = ['A'] then (3 : ℚ) else 4)
      (.bin '+' (.var ['A']) (.var ['B'])) = .ok 7 := by
  have hB : ¬((['B'] : List Char) = ['A']) := by decide
  constructor
  · apply claim_C8_amended (.bin '+' (.var ['A']) (.var ['B']))
      [(['A'], ⟨30, 1⟩), (['B'], ⟨40, 1⟩)]
    · decide
    · decide
    · intro t ht
      simp [varsOf] at ht
      rcases ht with rfl | rfl
      · exact ⟨⟨30, 1⟩, by decide⟩
      · exact ⟨⟨40, 1⟩, by decide⟩
    · decide
    · decide
    · intro p hp
      rcases List.mem_cons.mp hp with h | h
      · subst h
        norm_num [Dec.toQ]
      · rcases List.mem_cons.mp h with h1 | h1
        · subst h1
          norm_num [Dec.toQ, hB]
        · simp at h1
  · norm_num [evalWith, applyOp, hB]

/-! ## Claim C7: error behaviour of `__doCalculation` -/

theorem substTokens_err (cv : List (Tag × Dec)) :
    ∀ (dict : List (String × Tag)) (expr : List Char),
      (∃ p ∈ dict, dget cv p.2 = none) →
      substTokens dict cv expr = .error .keyError := by
  intro dict
  induction dict with
  | nil => intro expr h; simp at h
  | cons q rest ih =>
    intro expr h
    rcases hq : dget cv q.2 with _ | v
    · simp [substTokens, hq]
    · simp only [substTokens, hq]
      apply ih
      rcases h with ⟨p, hp, hpn⟩
      rcases List.mem_cons.mp hp with hp1 | hp1
      · subst hp1
        rw [hq] at hpn
        simp at hpn
      · exact ⟨p, hp1, hpn⟩

theorem substTokens_ok (cv : List (Tag × Dec)) :
    ∀ (dict : List (String × Tag)),
      (∀ p ∈ dict, (dget cv p.2).isSome) →
      ∀ expr, substTokens dict cv expr = .ok (substPure dict cv expr) := by
  intro dict
  induction dict with
  | nil => intro _ expr; simp [substTokens, substPure]
  | cons q rest ih =>
    intro h expr
    rcases hq : dget cv q.2 with _ | v
    · have := h q (by simp)
      rw [hq] at this
      simp at this
    · simp only [substTokens, hq]
      rw [ih (fun p hp => h p (by simp [hp])) _]
      have : substPure (q :: rest) cv expr =
          substPure rest cv (pyReplace expr q.2 (renderDec ((dget cv q.2).getD ⟨0, 0⟩))) := by
        simp [substPure]
      rw [this, hq]
      rfl

/-- Claim C7 as stated is false: the expression `5` is well formed and
contains no channel tags at all, yet with channel dictionary
`{"0": "A"}` and an empty value mapping, `__doCalculation` raises
`KeyError` (the spec's `UnknownChannelTag`) instead of returning a float —
the substitution loop looks up every dictionary tag whether or not it
occurs in the expression. -/
theorem claim_C7_counterexample :
    doCalculation ['5'] [("0", ['A'])] [] = .error .keyError ∧
    pyEval ['5'] = .ok 5 := by
  constructor
  · unfold doCalculation
    rw [substTokens_err [] [("0", ['A'])] ['5'] ⟨("0", ['A']), by decide, by decide⟩]
  · have hp : parseFull ['5'] = some (.num ⟨5, 0⟩) := by decide
    unfold pyEval
    rw [hp]
    norm_num [evalClosed, Dec.toQ]

/-- Claim C7 (amended): `__doCalculation` fails with `KeyError`
(`UnknownChannelTag`) whenever some tag of the channel dictionary —
whether or not it appears in the expression — has no entry in the supplied
value mapping; when every dictionary tag is mapped, it returns exactly
`eval` of the fully substituted expression text, which fails with
`SyntaxError` (`InvalidExpression`) whenever that text is syntactically
malformed. -/
theorem claim_C7_amended :
    (∀ (expr : List Char) (dict : List (String × Tag)) (cv : List (Tag × Dec)),
      (∃ p ∈ dict, dget cv p.2 = none) →
      doCalculation expr dict cv = .error .keyError) ∧
    (∀ (expr : List Char) (dict : List (String × Tag)) (cv : List (Tag × Dec)),
      (∀ p ∈ dict, (dget cv p.2).isSome) →
      doCalculation expr dict cv = pyEval (substPure dict cv expr)) ∧
    (∀ s : List Char, parseFull s = none → pyEval s = .error .syntaxError) := by
  refine ⟨?_, ?_, ?_⟩
  · intro expr dict cv h
    unfold doCalculation
    rw [substTokens_err cv dict expr h]
  · intro expr dict cv h
    unfold doCalculation
    rw [substTokens_ok cv dict h expr]
  · intro s h
    unfold pyEval
    rw [h]

/-- Witness for the amended C7: a missing dictionary tag raises
`KeyError`; with all tags mapped the result is `eval` of the substituted
text; an unparseable text yields `SyntaxError`. -/
theorem claim_C7_witness :
    doCalculation ['5'] [("0", ['A'])] [] = .error .keyError ∧
    doCalculation ['A', '+', 'A'] [("0", ['A'])] [(['A'], ⟨20, 1⟩)] =
      pyEval (substPure [("0", ['A'])] [(['A'], ⟨20, 1⟩)] ['A', '+', 'A']) ∧
    pyEval ['+'] = .error .syntaxError := by
  refine ⟨?_, ?_, ?_⟩
  · exact claim_C7_amended.1 ['5'] [("0", ['A'])] [] ⟨("0", ['A']), by decide, by decide⟩
  · exact claim_C7_amended.2.1 ['A', '+', 'A'] [("0", ['A'])] [(['A'], ⟨20, 1⟩)]
      (by decide)
  · exact claim_C7_amended.2.2 ['+'] (by decide)

/-! ## The processing pipeline: timestamps and point counts -/

/-- A pair found in `dset l a b` is either the newly written pair or was
already present. -/
theorem mem_dset {α β : Type} [DecidableEq α] (l : List (α × β)) (a : α) (b : β) :
    ∀ p ∈ dset l a b, p = (a, b) ∨ p ∈ l := by
  induction l with
  | nil =>
    intro p hp
    simp [dset] at hp
    exact Or.inl hp
  | cons q rest ih =>
    intro p hp
    by_cases hq : q.1 = a
    · simp only [dset, if_pos hq] at hp
      rcases List.mem_cons.mp hp with h | h
      · exact Or.inl h
      · exact Or.inr (List.mem_cons_of_mem _ h)
    · simp only [dset, if_neg hq] at hp
      rcases List.mem_cons.mp hp with h | h
      · exact Or.inr (h ▸ List.mem_cons_self _ _)
      · rcases ih p h with h2 | h2
        · exact Or.inl h2
        · exact Or.inr (List.mem_cons_of_mem _ h2)

/-- The pop loop succeeds whenever there are at least as many samples left
as channel tags, and consumes exactly one sample per tag. -/
theorem popSeq_spec (revTags : List Tag) :
    ∀ (cv : List (Tag × Dec)) (data : List Dec), revTags.length ≤ data.length →
      ∃ cv2 data2, popSeq revTags cv data = .ok (cv2, data2) ∧
        data2.length = data.length - revTags.length := by
  induction revTags with
  | nil =>
    intro cv data _
    exact ⟨cv, data, rfl, by simp [popSeq]⟩
  | cons t rest ih =>
    intro cv data hlen
    have hne : data ≠ [] := by
      intro hc
      subst hc
      simp at hlen
    have hs : data.getLast?.isSome := List.getLast?_isSome.mpr hne
    obtain ⟨v, hv⟩ := Option.isSome_iff_exists.mp hs
    have hdl : data.dropLast.length = data.length - 1 := List.length_dropLast data
    have hlen2 : rest.length ≤ data.dropLast.length := by
      rw [hdl]
      simp only [List.length_cons] at hlen
      omega
    obtain ⟨cv2, data2, hok, hl2⟩ := ih (dset cv t v) data.dropLast hlen2
    refine ⟨cv2, data2, ?_, ?_⟩
    · simp [popSeq, hv, hok]
    · rw [hl2, hdl]
      simp only [List.length_cons] at hlen ⊢
      omega

/-- The reconstructed-timestamp sequence of zero chunks. -/
theorem tsSeq_zero (ts offset : ℚ) : tsSeq 0 ts offset = [] := by
  simp [tsSeq]

/-- One loop iteration prepends `ts - offset` and shifts the base. -/
theorem tsSeq_succ (m : Nat) (ts offset : ℚ) :
    tsSeq (m + 1) ts offset = (ts - offset) :: tsSeq m (ts - offset) offset := by
  unfold tsSeq
  rw [List.range_succ_eq_map, List.map_cons, List.map_map]
  congr 1
  · norm_num
  · refine List.map_congr_left (fun i _ => ?_)
    simp only [Function.comp_apply]
    push_cast
    ring

/-- The timestamp sequence has one entry per chunk. -/
theorem tsSeq_length (m : Nat) (ts offset : ℚ) : (tsSeq m ts offset).length = m := by
  unfold tsSeq
  rw [List.length_map, List.length_range]

/-- Lookup in the partially initialised result dict. -/
theorem dget_initFold (cfgName : String) :
    ∀ (calcs : List (String × List Char)) (rd : ResultDict) (k : String),
      dget (calcs.foldl (fun rd p => dset rd (measKey cfgName p.1) ([] : ValueDict)) rd) k =
        if k ∈ mkNames cfgName calcs then some [] else dget rd k := by
  intro calcs
  induction calcs with
  | nil =>
    intro rd k
    simp [mkNames]
  | cons c rest ih =>
    intro rd k
    have hnames : k ∈ mkNames cfgName (c :: rest) ↔
        k = measKey cfgName c.1 ∨ k ∈ mkNames cfgName rest := by
      simp [mkNames, eq_comm]
    rw [List.foldl_cons, ih]
    by_cases hk : k ∈ mkNames cfgName rest
    · rw [if_pos hk, if_pos (hnames.mpr (Or.inr hk))]
    · rw [if_neg hk]
      by_cases hkc : k = measKey cfgName c.1
      · rw [if_pos (hnames.mpr (Or.inl hkc)), hkc, dget_dset_self]
      · rw [if_neg (fun hc => (hnames.mp hc).elim hkc hk),
          dget_dset_ne _ _ _ _ (fun hc => hkc hc.symm)]

/-- `resultDict` initialisation: exactly the configured measurement names
are bound, each to an empty value dict. -/
theorem dget_initResultDict (cfgName : String) (calcs : List (String × List Char))
    (k : String) :
    dget (initResultDict cfgName calcs) k =
      if k ∈ mkNames cfgName calcs then some ([] : ValueDict) else none := by
  unfold initResultDict
  rw [dget_initFold]
  split <;> rfl

/-- Key list of the partially initialised result dict. -/
theorem initFold_keys (cfgName : String) :
    ∀ (calcs : List (String × List Char)) (rd : ResultDict),
      (∀ k ∈ mkNames cfgName calcs, k ∉ dkeys rd) → (mkNames cfgName calcs).Nodup →
      dkeys (calcs.foldl (fun rd p => dset rd (measKey cfgName p.1) ([] : ValueDict)) rd) =
        dkeys rd ++ mkNames cfgName calcs := by
  intro calcs
  induction calcs with
  | nil =>
    intro rd _ _
    simp [mkNames]
  | cons c rest ih =>
    intro rd hfresh hnd
    have hnames : mkNames cfgName (c :: rest) =
        measKey cfgName c.1 :: mkNames cfgName rest := by
      simp [mkNames]
    rw [hnames] at hfresh hnd ⊢
    rw [List.foldl_cons]
    have hkey : measKey cfgName c.1 ∉ dkeys rd := hfresh _ (List.mem_cons_self _ _)
    have hkeys1 : dkeys (dset rd (measKey cfgName c.1) []) =
        dkeys rd ++ [measKey cfgName c.1] :=
      dkeys_dset_of_not_mem _ _ _ hkey
    have hnd2 := List.nodup_cons.mp hnd
    have hfresh2 : ∀ k ∈ mkNames cfgName rest,
        k ∉ dkeys (dset rd (measKey cfgName c.1) []) := by
      intro k hk
      rw [hkeys1]
      intro hc
      rcases List.mem_append.mp hc with h | h
      · exact hfresh k (List.mem_cons_of_mem _ hk) h
      · exact hnd2.1 ((List.mem_singleton.mp h) ▸ hk)
    rw [ih _ hfresh2 hnd2.2, hkeys1]
    simp

/-- With distinct measurement names, the keys of the initial result dict
are exactly the measurement names, in configuration order. -/
theorem dkeys_initResultDict (cfgName : String) (calcs : List (String × List Char))
    (hnd : (mkNames cfgName calcs).Nodup) :
    dkeys (initResultDict cfgName calcs) = mkNames cfgName calcs := by
  unfold initResultDict
  rw [initFold_keys cfgName calcs [] (by intro k _ hc; simp [dkeys] at hc) hnd]
  simp [dkeys]

/-- The calculation loop for one chunk: what it does to every key of the
result dict.  On success it preserves the key set, leaves keys outside the
configured measurement names untouched, appends one `(ts, value)` pair to
every configured measurement entry whose timestamps are all fresh (the
value of a duplicated calculation name is the last one written), and every
pair of the output was present before or carries timestamp `ts`. -/
theorem evalCalcs_spec (cfgName : String) (channelDict : List (String × Tag))
    (cv : List (Tag × Dec)) (ts : ℚ) :
    ∀ (calcs : List (String × List Char)) (rd rd1 : ResultDict),
      evalCalcs calcs cfgName channelDict cv ts rd = .ok rd1 →
      dkeys rd1 = dkeys rd ∧
      (∀ k, k ∉ mkNames cfgName calcs → dget rd1 k = dget rd k) ∧
      (∀ k d, dget rd k = some d → (∀ p ∈ d, p.1 ≠ ts) → k ∈ mkNames cfgName calcs →
        ∃ v, dget rd1 k = some (d ++ [(ts, v)])) ∧
      (∀ k d w, dget rd k = some (d ++ [(ts, w)]) → (∀ p ∈ d, p.1 ≠ ts) →
        ∃ w2, dget rd1 k = some (d ++ [(ts, w2)])) ∧
      (∀ k d1, dget rd1 k = some d1 → ∀ p ∈ d1, p.1 = ts ∨
        ∃ d, dget rd k = some d ∧ p ∈ d) := by
  intro calcs
  induction calcs with
  | nil =>
    intro rd rd1 h
    simp only [evalCalcs, Except.ok.injEq] at h
    subst h
    refine ⟨rfl, fun k _ => rfl, ?_, ?_, ?_⟩
    · intro k d _ _ hk
      simp [mkNames] at hk
    · intro k d w hd _
      exact ⟨w, hd⟩
    · intro k d1 hd1 p hp
      exact Or.inr ⟨d1, hd1, hp⟩
  | cons c rest ih =>
    intro rd rd1 h
    obtain ⟨name, expr⟩ := c
    cases hdc : doCalculation expr channelDict cv with
    | error e => simp [evalCalcs, hdc] at h
    | ok v =>
      cases hdg : dget rd (measKey cfgName name) with
      | none => simp [evalCalcs, hdc, hdg] at h
      | some d0 =>
        have h2 : evalCalcs rest cfgName channelDict cv ts
            (dset rd (measKey cfgName name) (dset d0 ts v)) = .ok rd1 := by
          simpa [evalCalcs, hdc, hdg] using h
        have hnames : mkNames cfgName ((name, expr) :: rest) =
            measKey cfgName name :: mkNames cfgName rest := by
          simp [mkNames]
        have hmemK : measKey cfgName name ∈ dkeys rd := dget_mem_of_some hdg
        have hDk : dkeys (dset rd (measKey cfgName name) (dset d0 ts v)) = dkeys rd :=
          dkeys_dset_of_mem _ _ _ hmemK
        obtain ⟨hD, hA, hB, hC, hE⟩ :=
          ih (dset rd (measKey cfgName name) (dset d0 ts v)) rd1 h2
        refine ⟨hD.trans hDk, ?_, ?_, ?_, ?_⟩
        · intro k hk
          rw [hnames] at hk
          simp only [List.mem_cons, not_or] at hk
          rw [hA k hk.2, dget_dset_ne _ _ _ _ (fun hc => hk.1 hc.symm)]
        · intro k d hd hfresh hk
          rw [hnames] at hk
          by_cases hkk : k = measKey cfgName name
          · subst hkk
            have hd0 : d0 = d := Option.some.inj (hdg.symm.trans hd)
            subst hd0
            have hts : ts ∉ dkeys d0 := by
              intro hc
              obtain ⟨p, hp, hp1⟩ := List.mem_map.mp hc
              exact hfresh p hp hp1
            have hset : dset d0 ts v = d0 ++ [(ts, v)] := dset_append_fresh _ _ _ hts
            have hdget2 : dget (dset rd (measKey cfgName name) (dset d0 ts v))
                (measKey cfgName name) = some (d0 ++ [(ts, v)]) := by
              rw [hset]
              exact dget_dset_self _ _ _
            exact hC (measKey cfgName name) d0 v hdget2 hfresh
          · have hkrest : k ∈ mkNames cfgName rest := by
              rcases List.mem_cons.mp hk with hc | hc
              · exact absurd hc hkk
              · exact hc
            have hd2 : dget (dset rd (measKey cfgName name) (dset d0 ts v)) k = some d := by
              rw [dget_dset_ne _ _ _ _ (fun hc => hkk hc.symm)]
              exact hd
            exact hB k d hd2 hfresh hkrest
        · intro k d w hd hfresh
          by_cases hkk : k = measKey cfgName name
          · subst hkk
            have hd0 : d0 = d ++ [(ts, w)] := Option.some.inj (hdg.symm.trans hd)
            subst hd0
            have hts : ts ∉ dkeys d := by
              intro hc
              obtain ⟨p, hp, hp1⟩ := List.mem_map.mp hc
              exact hfresh p hp hp1
            have hset : dset (d ++ [(ts, w)]) ts v = d ++ [(ts, v)] :=
              dset_append_last _ _ _ _ hts
            have hdget2 : dget (dset rd (measKey cfgName name) (dset (d ++ [(ts, w)]) ts v))
                (measKey cfgName name) = some (d ++ [(ts, v)]) := by
              rw [hset]
              exact dget_dset_self _ _ _
            exact hC (measKey cfgName name) d v hdget2 hfresh
          · have hd2 : dget (dset rd (measKey cfgName name) (dset d0 ts v)) k =
                some (d ++ [(ts, w)]) := by
              rw [dget_dset_ne _ _ _ _ (fun hc => hkk hc.symm)]
              exact hd
            exact hC k d w hd2 hfresh
        · intro k d1 hd1 p hp
          rcases hE k d1 hd1 p hp with hpt | ⟨d2, hd2, hpd⟩
          · exact Or.inl hpt
          · by_cases hkk : k = measKey cfgName name
            · subst hkk
              have hd2e : d2 = dset d0 ts v :=
                Option.some.inj (hd2.symm.trans (dget_dset_self rd _ (dset d0 ts v)))
              subst hd2e
              rcases mem_dset d0 ts v p hpd with hpv | hpold
              · exact Or.inl (by rw [hpv])
              · exact Or.inr ⟨d0, hdg, hpold⟩
            · rw [dget_dset_ne _ _ _ _ (fun hc => hkk hc.symm)] at hd2
              exact Or.inr ⟨d2, hd2, hpd⟩

/-- An exhausted batch ends the while loop immediately. -/
theorem procLoopGo_done (f : Nat) (calcs : List (String × List Char)) (cfgName : String)
    (channelDict : List (String × Tag)) (offset : ℚ) (revTags : List Tag)
    (rd : ResultDict) (ts : ℚ) (data : List Dec) (hd : data.length = 0) :
    procLoopGo f calcs cfgName channelDict offset revTags rd ts data = .ok rd := by
  cases f with
  | zero => simp [procLoopGo, hd]
  | succ f2 => simp [procLoopGo, hd]

/-- One successful iteration of the while loop: pop one chunk, decrement
the reconstructed timestamp, evaluate the calculations, continue. -/
theorem procLoopGo_step (f : Nat) (calcs : List (String × List Char)) (cfgName : String)
    (channelDict : List (String × Tag)) (offset : ℚ) (revTags : List Tag)
    (rd : ResultDict) (ts : ℚ) (data : List Dec)
    (hd : data.length ≠ 0) (hr : revTags.length ≠ 0)
    (cv : List (Tag × Dec)) (data2 : List Dec)
    (hpop : popSeq revTags [] data = .ok (cv, data2)) (rd2 : ResultDict)
    (hec : evalCalcs calcs cfgName channelDict cv (ts - offset) rd = .ok rd2) :
    procLoopGo (f + 1) calcs cfgName channelDict offset revTags rd ts data =
      procLoopGo f calcs cfgName channelDict offset revTags rd2 (ts - offset) data2 := by
  simp only [procLoopGo, if_neg hd, if_neg hr, hpop, hec]

/-- The while loop of `processingFunction`, batch-level specification: a
successful run over `m` chunks preserves the key set of the result dict,
leaves keys outside the configured measurement names untouched, and
appends to every configured measurement entry exactly one point per chunk,
keyed by the reconstructed timestamps `ts - offset, …, ts - m·offset` —
provided every timestamp already present is at least `ts`. -/
theorem procLoopGo_spec (calcs : List (String × List Char)) (cfgName : String)
    (channelDict : List (String × Tag)) (offset : ℚ) (revTags : List Tag)
    (hoff : 0 < offset) (hN : revTags ≠ []) :
    ∀ (m f : Nat) (rd : ResultDict) (ts : ℚ) (data : List Dec) (rd1 : ResultDict),
      data.length = m * revTags.length → data.length ≤ f →
      (∀ k d, dget rd k = some d → ∀ p ∈ d, ts ≤ p.1) →
      procLoopGo f calcs cfgName channelDict offset revTags rd ts data = .ok rd1 →
      dkeys rd1 = dkeys rd ∧
      (∀ k, k ∉ mkNames cfgName calcs → dget rd1 k = dget rd k) ∧
      (∀ k d, dget rd k = some d → k ∈ mkNames cfgName calcs →
        ∃ vs, vs.length = m ∧ dget rd1 k = some (d ++ (tsSeq m ts offset).zip vs)) := by
  intro m
  induction m with
  | zero =>
    intro f rd ts data rd1 hlen _ _ hrun
    have hd0 : data.length = 0 := by simpa using hlen
    rw [procLoopGo_done _ _ _ _ _ _ _ _ _ hd0] at hrun
    have hrd : rd = rd1 := by simpa using hrun
    subst hrd
    refine ⟨rfl, fun k _ => rfl, ?_⟩
    intro k d hd _
    exact ⟨[], rfl, by simp [tsSeq_zero, hd]⟩
  | succ m ih =>
    intro f rd ts data rd1 hlen hfuel hbound hrun
    have hNlen : 0 < revTags.length := List.length_pos.mpr hN
    have hdlen : 0 < data.length := by
      rw [hlen]
      exact Nat.mul_pos (Nat.succ_pos m) hNlen
    obtain ⟨f2, rfl⟩ : ∃ f2, f = f2 + 1 := by
      cases f with
      | zero => omega
      | succ f2 => exact ⟨f2, rfl⟩
    have hds : data.length ≠ 0 := Nat.pos_iff_ne_zero.mp hdlen
    have hrs : revTags.length ≠ 0 := Nat.pos_iff_ne_zero.mp hNlen
    have hle : revTags.length ≤ data.length := by
      have h1 : 1 * revTags.length ≤ (m + 1) * revTags.length :=
        Nat.mul_le_mul_right _ (by omega)
      rw [hlen]
      simpa using h1
    obtain ⟨cv, data2, hpop, hlen2⟩ := popSeq_spec revTags [] data hle
    simp only [procLoopGo, if_neg hds, if_neg hrs, hpop] at hrun
    cases hec : evalCalcs calcs cfgName channelDict cv (ts - offset) rd with
    | error e =>
      simp only [hec] at hrun
      exact Except.noConfusion hrun
    | ok rd2 =>
      simp only [hec] at hrun
      obtain ⟨hD, hA, hB, _hC, hE⟩ := evalCalcs_spec cfgName channelDict cv (ts - offset)
        calcs rd rd2 hec
      have hbound2 : ∀ k d, dget rd2 k = some d → ∀ p ∈ d, ts - offset ≤ p.1 := by
        intro k d hd p hp
        rcases hE k d hd p hp with h | ⟨d0, hd0, hp0⟩
        · exact le_of_eq h.symm
        · have := hbound k d0 hd0 p hp0
          linarith
      have hmul : (m + 1) * revTags.length = m * revTags.length + revTags.length := by
        ring
      have hlen2m : data2.length = m * revTags.length := by
        rw [hlen2, hlen, hmul]
        omega
      have hfuel2 : data2.length ≤ f2 := by
        rw [hlen2]
        omega
      obtain ⟨hD2, hA2, hB2⟩ := ih f2 rd2 (ts - offset) data2 rd1 hlen2m hfuel2 hbound2 hrun
      refine ⟨hD2.trans hD, ?_, ?_⟩
      · intro k hk
        rw [hA2 k hk, hA k hk]
      · intro k d hd hk
        have hfresh : ∀ p ∈ d, p.1 ≠ ts - offset := by
          intro p hp hc
          have := hbound k d hd p hp
          rw [hc] at this
          linarith
        obtain ⟨v, hv⟩ := hB k d hd hfresh hk
        obtain ⟨vs, hvslen, hvs⟩ := hB2 k (d ++ [(ts - offset, v)]) hv hk
        refine ⟨v :: vs, by simp [hvslen], ?_⟩
        rw [hvs, tsSeq_succ, List.zip_cons_cons, List.append_assoc, List.singleton_append]

/-- `processingFunction`, batch-level specification: a successful run over
`m` chunks binds nothing but the configured measurement names, gives every
configured calculation exactly one point per chunk keyed by the
reconstructed timestamps `T - 1/r, …, T - m/r`, and (for distinct
measurement names) keeps the keys in configuration order. -/
theorem processingFunction_spec (T : ℚ) (data : List Dec)
    (calcs : List (String × List Char)) (cfgName : String)
    (channelDict : List (String × Tag)) (r : ℚ) (m : Nat) (rd1 : ResultDict)
    (hr : 0 < r) (hcd : channelDict ≠ []) (hlen : data.length = m * channelDict.length)
    (hok : processingFunction T data calcs cfgName channelDict r = .ok rd1) :
    (∀ k, k ∉ mkNames cfgName calcs → dget rd1 k = none) ∧
    (∀ name ∈ calcs.map Prod.fst, ∃ vs, vs.length = m ∧
      dget rd1 (measKey cfgName name) = some ((tsSeq m T (1 / r)).zip vs)) ∧
    ((mkNames cfgName calcs).Nodup → dkeys rd1 = mkNames cfgName calcs) := by
  have hr0 : r ≠ 0 := ne_of_gt hr
  unfold processingFunction at hok
  rw [if_neg hr0] at hok
  have hoff : 0 < 1 / r := by positivity
  have hrev : (channelDict.map Prod.snd).reverse ≠ [] := by
    intro hc
    simp only [List.reverse_eq_nil_iff, List.map_eq_nil_iff] at hc
    exact hcd hc
  have hrevlen : (channelDict.map Prod.snd).reverse.length = channelDict.length := by
    simp
  have hbound0 : ∀ k d, dget (initResultDict cfgName calcs) k = some d →
      ∀ p ∈ d, T ≤ p.1 := by
    intro k d hd p hp
    rw [dget_initResultDict] at hd
    by_cases hk : k ∈ mkNames cfgName calcs
    · rw [if_pos hk] at hd
      cases hd
      simp at hp
    · rw [if_neg hk] at hd
      cases hd
  obtain ⟨hD, hA, hB⟩ := procLoopGo_spec calcs cfgName channelDict (1 / r)
    ((channelDict.map Prod.snd).reverse) hoff hrev m data.length
    (initResultDict cfgName calcs) T data rd1 (by rw [hlen, hrevlen]) le_rfl hbound0 hok
  refine ⟨?_, ?_, ?_⟩
  · intro k hk
    rw [hA k hk, dget_initResultDict, if_neg hk]
  · intro name hname
    have hk : measKey cfgName name ∈ mkNames cfgName calcs := by
      rcases List.mem_map.mp hname with ⟨p, hp, hp1⟩
      exact List.mem_map.mpr ⟨p, hp, by rw [hp1]⟩
    have hd : dget (initResultDict cfgName calcs) (measKey cfgName name) = some [] := by
      rw [dget_initResultDict, if_pos hk]
    obtain ⟨vs, hvslen, hvs⟩ := hB (measKey cfgName name) [] hd hk
    exact ⟨vs, hvslen, by simpa using hvs⟩
  · intro hnd
    rw [hD, dkeys_initResultDict cfgName calcs hnd]

/-! ## A concrete two-chunk batch

Configuration `cfg`: channels `0 ↦ A`, `1 ↦ B`, scan rate 10, one
calculation `sum = A+B`.  Batch `[1.0, 2.0, 3.0, 4.0]` (oldest first) with
capture-end timestamp 100. -/

theorem scenario_pop1 : popSeq [['B'], ['A']] [] [⟨10,1⟩, ⟨20,1⟩, ⟨30,1⟩, ⟨40,1⟩] =
    .ok ([(['B'], (⟨40,1⟩ : Dec)), (['A'], ⟨30,1⟩)], [⟨10,1⟩, ⟨20,1⟩]) := by decide

theorem scenario_pop2 : popSeq [['B'], ['A']] [] [⟨10,1⟩, ⟨20,1⟩] =
    .ok ([(['B'], (⟨20,1⟩ : Dec)), (['A'], ⟨10,1⟩)], []) := by decide

theorem scenario_subst1 : substTokens [("0", ['A']), ("1", ['B'])]
    [(['B'], (⟨40,1⟩ : Dec)), (['A'], ⟨30,1⟩)] ['A','+','B'] =
    .ok ['3','.','0','+','4','.','0'] := by decide

theorem scenario_parse1 : parseFull ['3','.','0','+','4','.','0'] =
    some (.bin '+' (.num ⟨30,1⟩) (.num ⟨40,1⟩)) := by decide

theorem scenario_key : ("cfg_sum" : String) = measKey "cfg" "sum" := by decide

theorem scenario_init : initResultDict "cfg" [("sum", ['A','+','B'])] =
    [("cfg_sum", [])] := by decide

theorem scenario_dget1 : dget [("cfg_sum", ([] : ValueDict))] (measKey "cfg" "sum") =
    some [] := by decide

theorem scenario_calc1 : doCalculation ['A','+','B'] [("0", ['A']), ("1", ['B'])]
    [(['B'], (⟨40,1⟩ : Dec)), (['A'], ⟨30,1⟩)] = .ok 7 := by
  unfold doCalculation
  simp only [scenario_subst1]
  unfold pyEval
  simp only [scenario_parse1]
  norm_num [evalClosed, applyOp, Dec.toQ]

theorem scenario_subst2 : substTokens [("0", ['A']), ("1", ['B'])]
    [(['B'], (⟨20,1⟩ : Dec)), (['A'], ⟨10,1⟩)] ['A','+','B'] =
    .ok ['1','.','0','+','2','.','0'] := by decide

theorem scenario_parse2 : parseFull ['1','.','0','+','2','.','0'] =
    some (.bin '+' (.num ⟨10,1⟩) (.num ⟨20,1⟩)) := by decide

theorem scenario_calc2 : doCalculation ['A','+','B'] [("0", ['A']), ("1", ['B'])]
    [(['B'], (⟨20,1⟩ : Dec)), (['A'], ⟨10,1⟩)] = .ok 3 := by
  unfold doCalculation
  simp only [scenario_subst2]
  unfold pyEval
  simp only [scenario_parse2]
  norm_num [evalClosed, applyOp, Dec.toQ]

theorem scenario_eval1 : evalCalcs [("sum", ['A','+','B'])] "cfg"
    [("0", ['A']), ("1", ['B'])]
    [(['B'], (⟨40,1⟩ : Dec)), (['A'], ⟨30,1⟩)] ((100 : ℚ) - 1/10) [("cfg_sum", [])] =
    .ok [("cfg_sum", [((100 : ℚ) - 1/10, 7)])] := by
  simp only [evalCalcs, scenario_calc1, scenario_dget1]
  rw [← scenario_key]
  simp [dset]

theorem scenario_dget2 :
    dget [("cfg_sum", [((100 : ℚ) - 1/10, (7 : ℚ))])] (measKey "cfg" "sum") =
    some [((100 : ℚ) - 1/10, 7)] := by
  rw [← scenario_key]
  simp [dget]

theorem scenario_eval2 : evalCalcs [("sum", ['A','+','B'])] "cfg"
    [("0", ['A']), ("1", ['B'])]
    [(['B'], (⟨20,1⟩ : Dec)), (['A'], ⟨10,1⟩)] ((100 : ℚ) - 1/10 - 1/10)
    [("cfg_sum", [((100 : ℚ) - 1/10, 7)])] =
    .ok [("cfg_sum", [((100 : ℚ) - 1/10, 7), (100 - 1/10 - 1/10, 3)])] := by
  simp only [evalCalcs, scenario_calc2, scenario_dget2]
  rw [← scenario_key]
  norm_num [dset]

/-- The full run of the two-chunk batch: the values are `B1+A1 = 7` and
`B0+A0 = 3`, stored under the reconstructed timestamps `100 - 0.1` and
`100 - 0.2` — not `100` and `100 - 0.1`. -/
theorem scenario_run :
    processingFunction 100 [⟨10,1⟩, ⟨20,1⟩, ⟨30,1⟩, ⟨40,1⟩] [("sum", ['A','+','B'])] "cfg"
      [("0", ['A']), ("1", ['B'])] 10 =
      .ok [("cfg_sum", [((100 : ℚ) - 1/10, 7), (100 - 1/10 - 1/10, 3)])] := by
  unfold processingFunction
  rw [if_neg (by norm_num : ¬((10 : ℚ) = 0))]
  rw [scenario_init]
  show procLoopGo 4 [("sum", ['A','+','B'])] "cfg" [("0", ['A']), ("1", ['B'])] (1 / 10)
    [['B'], ['A']] [("cfg_sum", [])] 100 [⟨10,1⟩, ⟨20,1⟩, ⟨30,1⟩, ⟨40,1⟩] = _
  rw [show (4 : Nat) = 3 + 1 from rfl,
    procLoopGo_step 3 _ _ _ _ _ _ _ _ (by decide) (by decide) _ _ scenario_pop1 _
      scenario_eval1]
  rw [show (3 : Nat) = 2 + 1 from rfl,
    procLoopGo_step 2 _ _ _ _ _ _ _ _ (by decide) (by decide) _ _ scenario_pop2 _
      scenario_eval2]
  exact procLoopGo_done 2 _ _ _ _ _ _ _ _ rfl

/-- When all entries of a result dict hold `m` points, the total point
count is the number of entries times `m`. -/
theorem pointCount_const (m : Nat) : ∀ rd : ResultDict, (∀ p ∈ rd, p.2.length = m) →
    pointCount rd = rd.length * m := by
  intro rd
  induction rd with
  | nil =>
    intro _
    simp [pointCount]
  | cons p rest ih =>
    intro h
    simp only [pointCount, List.map_cons, List.sum_cons] at *
    rw [h p (List.mem_cons_self _ _), ih (fun q hq => h q (List.mem_cons_of_mem _ hq))]
    simp only [List.length_cons]
    ring

/-- C1: the batch processor does NOT give the newest chunk the timestamp
`T`.  In the 2-channel, 10 Hz, `A+B` scenario from the specification the
two produced points carry timestamps `T - 0.1` and `T - 0.2` — no point
carries `T`; the values are correct but every timestamp is shifted one
chunk period early: chunk `i` gets `T - (i+1)/r`, not `T - i/r`. -/
theorem claim_C1_counterexample :
    processingFunction 100 [⟨10,1⟩, ⟨20,1⟩, ⟨30,1⟩, ⟨40,1⟩] [("sum", ['A','+','B'])] "cfg"
      [("0", ['A']), ("1", ['B'])] 10 =
      .ok [("cfg_sum", [((100 : ℚ) - 1/10, 7), (100 - 1/10 - 1/10, 3)])] ∧
    (∀ p ∈ [((100 : ℚ) - 1/10, (7 : ℚ)), (100 - 1/10 - 1/10, 3)], p.1 ≠ 100) ∧
    (100 : ℚ) - 1/10 = 100 - (0 + 1) / 10 ∧
    (100 : ℚ) - 1/10 - 1/10 = 100 - (1 + 1) / 10 := by
  refine ⟨scenario_run, ?_, by norm_num, by norm_num⟩
  intro p hp
  fin_cases hp <;> norm_num

/-- C1, amended: for a batch of `m` chunks ending at `T` with scan rate
`r > 0`, every configured calculation receives one point per chunk, and
chunk `i` (0 = nearest the batch end) is keyed `T - (i+1)/r`: the newest
chunk carries `T - 1/r`, the earliest `T - m/r`. -/
theorem claim_C1_amended (T : ℚ) (data : List Dec) (calcs : List (String × List Char))
    (cfgName : String) (channelDict : List (String × Tag)) (r : ℚ) (m : Nat)
    (rd1 : ResultDict) (hr : 0 < r) (hcd : channelDict ≠ [])
    (hlen : data.length = m * channelDict.length)
    (hok : processingFunction T data calcs cfgName channelDict r = .ok rd1) :
    (∀ name ∈ calcs.map Prod.fst, ∃ vs, vs.length = m ∧
      dget rd1 (measKey cfgName name) = some ((tsSeq m T (1 / r)).zip vs)) ∧
    tsSeq m T (1 / r) = (List.range m).map (fun i : Nat => T - ((i : ℚ) + 1) / r) := by
  refine ⟨(processingFunction_spec T data calcs cfgName channelDict r m rd1
    hr hcd hlen hok).2.1, ?_⟩
  unfold tsSeq
  refine List.map_congr_left (fun i _ => ?_)
  ring

/-- Witness for the amended C1 at the concrete two-chunk scenario. -/
theorem claim_C1_witness :
    (∀ name ∈ [("sum", ['A','+','B'])].map Prod.fst, ∃ vs, vs.length = 2 ∧
      dget [("cfg_sum", [((100 : ℚ) - 1/10, (7 : ℚ)), (100 - 1/10 - 1/10, 3)])]
        (measKey "cfg" name) = some ((tsSeq 2 100 (1 / 10)).zip vs)) ∧
    tsSeq 2 100 (1 / 10) =
      (List.range 2).map (fun i : Nat => 100 - ((i : ℚ) + 1) / 10) :=
  claim_C1_amended 100 [⟨10,1⟩, ⟨20,1⟩, ⟨30,1⟩, ⟨40,1⟩] [("sum", ['A','+','B'])] "cfg"
    [("0", ['A']), ("1", ['B'])] 10 2 _ (by norm_num) (by decide) (by decide) scenario_run

/-- C2: a batch whose expression cannot be parsed aborts the whole batch
with `SyntaxError` — zero points are produced, not `M·|expressions|`. -/
theorem claim_C2_counterexample :
    ([(⟨10,1⟩ : Dec)] : List Dec).length = 1 * [("0", ['A'])].length ∧
    processingFunction 0 [⟨10,1⟩] [("bad", ['+'])] "cfg" [("0", ['A'])] 1 =
      .error .syntaxError :=
  ⟨by decide, by decide⟩

/-- C2, amended: on a SUCCESSFUL run over `M·N` samples with distinct
measurement names, exactly `M·|calculations|` points are produced, and
all measurement entries share the same timestamp sequence, so any two
points from the same chunk carry equal timestamps. -/
theorem claim_C2_amended (T : ℚ) (data : List Dec) (calcs : List (String × List Char))
    (cfgName : String) (channelDict : List (String × Tag)) (r : ℚ) (m : Nat)
    (rd1 : ResultDict) (hr : 0 < r) (hcd : channelDict ≠ [])
    (hnd : (mkNames cfgName calcs).Nodup)
    (hlen : data.length = m * channelDict.length)
    (hok : processingFunction T data calcs cfgName channelDict r = .ok rd1) :
    pointCount rd1 = m * calcs.length ∧
    ∀ p ∈ rd1, p.2.map Prod.fst = tsSeq m T (1 / r) := by
  obtain ⟨_, hB, hkeys⟩ := processingFunction_spec T data calcs cfgName channelDict r m
    rd1 hr hcd hlen hok
  have hkeyseq := hkeys hnd
  have hndk : (dkeys rd1).Nodup := by
    rw [hkeyseq]
    exact hnd
  have hent : ∀ p ∈ rd1, p.2.map Prod.fst = tsSeq m T (1 / r) ∧ p.2.length = m := by
    intro p hp
    have hget : dget rd1 p.1 = some p.2 := dget_of_mem_nodup hndk hp
    have hpk : p.1 ∈ mkNames cfgName calcs := by
      rw [← hkeyseq]
      simp only [dkeys]
      exact List.mem_map_of_mem Prod.fst hp
    simp only [mkNames] at hpk
    obtain ⟨q, hq, hq1⟩ := List.mem_map.mp hpk
    obtain ⟨vs, hvslen, hvs⟩ := hB q.1 (List.mem_map_of_mem Prod.fst hq)
    rw [hq1] at hvs
    have hp2 : p.2 = (tsSeq m T (1 / r)).zip vs := Option.some.inj (hget.symm.trans hvs)
    constructor
    · rw [hp2]
      exact List.map_fst_zip _ _ (by rw [tsSeq_length, hvslen])
    · rw [hp2, List.length_zip, tsSeq_length, hvslen]
      simp
  constructor
  · have hlen1 : rd1.length = calcs.length := by
      have h1 : (dkeys rd1).length = (mkNames cfgName calcs).length := by rw [hkeyseq]
      simpa [dkeys, mkNames] using h1
    rw [pointCount_const m rd1 (fun p hp => (hent p hp).2), hlen1, Nat.mul_comm]
  · exact fun p hp => (hent p hp).1

/-- Witness for the amended C2 at the concrete two-chunk scenario: 2
chunks and one calculation give 2·1 points, all entries keyed by the
batch timestamp sequence. -/
theorem claim_C2_witness :
    pointCount [("cfg_sum", [((100 : ℚ) - 1/10, (7 : ℚ)), (100 - 1/10 - 1/10, 3)])] =
      2 * 1 ∧
    ∀ p ∈ [("cfg_sum", [((100 : ℚ) - 1/10, (7 : ℚ)), (100 - 1/10 - 1/10, 3)])],
      p.2.map Prod.fst = tsSeq 2 100 (1 / 10) :=
  claim_C2_amended 100 [⟨10,1⟩, ⟨20,1⟩, ⟨30,1⟩, ⟨40,1⟩] [("sum", ['A','+','B'])] "cfg"
    [("0", ['A']), ("1", ['B'])] 10 2 _ (by norm_num) (by decide) (by decide) (by decide)
    scenario_run

/-- C3: the reconstructed timestamps of a successfully processed batch
strictly decrease with chunk index, and consecutive chunks differ by
exactly `1/r`. -/
theorem claim_C3 (T : ℚ) (data : List Dec) (calcs : List (String × List Char))
    (cfgName : String) (channelDict : List (String × Tag)) (r : ℚ) (m : Nat)
    (rd1 : ResultDict) (hr : 0 < r) (hcd : channelDict ≠ [])
    (hlen : data.length = m * channelDict.length)
    (hok : processingFunction T data calcs cfgName channelDict r = .ok rd1) :
    ∀ name ∈ calcs.map Prod.fst, ∃ d, dget rd1 (measKey cfgName name) = some d ∧
      d.map Prod.fst = tsSeq m T (1 / r) ∧
      ∀ i, i + 1 < m → ∃ a b, (tsSeq m T (1 / r))[i]? = some a ∧
        (tsSeq m T (1 / r))[i + 1]? = some b ∧ b < a ∧ a - b = 1 / r := by
  intro name hname
  obtain ⟨vs, hvslen, hvs⟩ := (processingFunction_spec T data calcs cfgName channelDict r
    m rd1 hr hcd hlen hok).2.1 name hname
  refine ⟨_, hvs, ?_, ?_⟩
  · exact List.map_fst_zip _ _ (by rw [tsSeq_length, hvslen])
  · intro i hi
    have hi1 : i < m := by omega
    refine ⟨T - ((i : ℚ) + 1) * (1 / r), T - (((i : ℚ) + 1) + 1) * (1 / r), ?_, ?_, ?_, ?_⟩
    · unfold tsSeq
      rw [List.getElem?_map, List.getElem?_range hi1]
      rfl
    · unfold tsSeq
      rw [List.getElem?_map, List.getElem?_range hi]
      have hcast : ((i + 1 : ℕ) : ℚ) = (i : ℚ) + 1 := by push_cast; ring
      simp only [Option.map_some', hcast]
    · have hro : 0 < 1 / r := by positivity
      nlinarith
    · ring

/-- Witness for C3 at the concrete two-chunk scenario. -/
theorem claim_C3_witness :
    ∃ d, dget [("cfg_sum", [((100 : ℚ) - 1/10, (7 : ℚ)), (100 - 1/10 - 1/10, 3)])]
        (measKey "cfg" "sum") = some d ∧
      d.map Prod.fst = tsSeq 2 100 (1 / 10) ∧
      ∀ i, i + 1 < 2 → ∃ a b, (tsSeq 2 100 (1 / 10))[i]? = some a ∧
        (tsSeq 2 100 (1 / 10))[i + 1]? = some b ∧ b < a ∧ a - b = 1 / 10 :=
  claim_C3 100 [⟨10,1⟩, ⟨20,1⟩, ⟨30,1⟩, ⟨40,1⟩] [("sum", ['A','+','B'])] "cfg"
    [("0", ['A']), ("1", ['B'])] 10 2 _ (by norm_num) (by decide) (by decide) scenario_run
    "sum" (by decide)

/-! ## The reconfiguration protocol: invariant and claims -/

set_option maxRecDepth 4000 in
/-- Exhaustive check: the invariant is preserved by every step of the
interleaving semantics. -/
theorem rinv_check : ∀ (pa pb : Fin 9) (sem runF : Bool) (lv : Fin 3) (rsd : Bool),
    rinvB ⟨pa, pb, ⟨sem, runF, lv, rsd⟩⟩ = true →
    ∀ l : RLabel,
      rinvB ((rstep ⟨pa, pb, ⟨sem, runF, lv, rsd⟩⟩ l).getD ⟨pa, pb, ⟨sem, runF, lv, rsd⟩⟩) =
        true := by decide

set_option maxRecDepth 4000 in
/-- Exhaustive check: from every invariant state, a step of a
reconfiguration call advances its program counter by exactly one. -/
theorem advance_check : ∀ (pa pb : Fin 9) (sem runF : Bool) (lv : Fin 3) (rsd : Bool),
    rinvB ⟨pa, pb, ⟨sem, runF, lv, rsd⟩⟩ = true →
    ∀ l : RLabel, advanceOK ⟨pa, pb, ⟨sem, runF, lv, rsd⟩⟩ l = true := by decide

/-- The initial state satisfies the invariant. -/
theorem rinit_check : rinvB rinit = true := by decide

/-- The invariant is closed under steps. -/
theorem rinv_closed : ∀ s : RState, rinv s → ∀ l s2, rstep s l = some s2 → rinv s2 := by
  intro s hs l s2 heq
  obtain ⟨pa, pb, sem, runF, lv, rsd⟩ := s
  have h1 : rinvB ⟨pa, pb, ⟨sem, runF, lv, rsd⟩⟩ = true := decide_eq_true hs
  have h2 := rinv_check pa pb sem runF lv rsd h1 l
  rw [heq] at h2
  exact of_decide_eq_true h2

/-- Every reachable state of the reconfiguration protocol satisfies the
invariant. -/
theorem reach_rinv : ∀ s, RReach s → rinv s := by
  intro s h
  induction h with
  | init => exact of_decide_eq_true rinit_check
  | step hprev hstep ih => exact rinv_closed _ ih _ _ hstep

/-- C4: in every reachable state of two concurrent `changeMeasConfig`
calls, at most one call is inside the semaphore-guarded section, at most
one acquisition loop is running, and every step of a call advances it by
exactly one program point — the full clear-flag, join, swap-index,
queue-notify, restart sequence executes in program order. -/
theorem claim_C4 (s : RState) (hs : RReach s) :
    (¬(inCrit s.pcA ∧ inCrit s.pcB)) ∧
    s.shared.loops.val ≤ 1 ∧
    (∀ l : RLabel, ∀ s2 : RState, rstep s l = some s2 →
      (l = .stepA → s2.pcA.val = s.pcA.val + 1) ∧
      (l = .stepB → s2.pcB.val = s.pcB.val + 1)) := by
  have hinv := reach_rinv s hs
  refine ⟨hinv.1, hinv.2.2.1, ?_⟩
  intro l s2 heq
  obtain ⟨pa, pb, sem, runF, lv, rsd⟩ := s
  have h1 : rinvB ⟨pa, pb, ⟨sem, runF, lv, rsd⟩⟩ = true := decide_eq_true hinv
  constructor
  · intro hl
    subst hl
    have h2 := advance_check pa pb sem runF lv rsd h1 RLabel.stepA
    unfold advanceOK at h2
    rw [heq] at h2
    exact of_decide_eq_true h2
  · intro hl
    subst hl
    have h2 := advance_check pa pb sem runF lv rsd h1 RLabel.stepB
    unfold advanceOK at h2
    rw [heq] at h2
    exact of_decide_eq_true h2

/-- Witness for C4 at the initial state, where both calls are about to
acquire the semaphore. -/
theorem claim_C4_witness :
    (¬(inCrit rinit.pcA ∧ inCrit rinit.pcB)) ∧
    rinit.shared.loops.val ≤ 1 ∧
    (∀ l : RLabel, ∀ s2 : RState, rstep rinit l = some s2 →
      (l = .stepA → s2.pcA.val = rinit.pcA.val + 1) ∧
      (l = .stepB → s2.pcB.val = rinit.pcB.val + 1)) :=
  claim_C4 rinit RReach.init

/-- C10: in every reachable state the raise branch has not fired, a call
that has completed its `join` (program point 3) sees no running
acquisition loop — so `is_alive()` is false and the exception branch is
unreachable — and when both calls have returned the semaphore has been
released. -/
theorem claim_C10 (s : RState) (hs : RReach s) :
    s.shared.raised = false ∧
    (s.pcA.val = 3 → s.shared.loops.val = 0) ∧
    (s.pcB.val = 3 → s.shared.loops.val = 0) ∧
    ((s.pcA.val = 8 ∧ s.pcB.val = 8) → s.shared.sem = true) := by
  obtain ⟨hmut, hsem, hloops, hmjA, hmjB, hraised⟩ := reach_rinv s hs
  refine ⟨hraised, ?_, ?_, ?_⟩
  · intro h3
    exact hmjA ⟨by omega, by omega⟩
  · intro h3
    exact hmjB ⟨by omega, by omega⟩
  · rintro ⟨h8a, h8b⟩
    refine hsem.mpr ⟨fun hc => ?_, fun hc => ?_⟩
    · unfold inCrit at hc
      omega
    · unfold inCrit at hc
      omega

/-- Witness for C10 at a reachable state in which call A has completed its
`join`: acquire, clear the run flag, let the loop exit, complete the
join. -/
theorem claim_C10_witness :
    (RState.mk 3 0 ⟨false, false, 0, false⟩).shared.raised = false ∧
    ((RState.mk 3 0 ⟨false, false, 0, false⟩).pcA.val = 3 →
      (RState.mk 3 0 ⟨false, false, 0, false⟩).shared.loops.val = 0) ∧
    ((RState.mk 3 0 ⟨false, false, 0, false⟩).pcB.val = 3 →
      (RState.mk 3 0 ⟨false, false, 0, false⟩).shared.loops.val = 0) ∧
    (((RState.mk 3 0 ⟨false, false, 0, false⟩).pcA.val = 8 ∧
      (RState.mk 3 0 ⟨false, false, 0, false⟩).pcB.val = 8) →
      (RState.mk 3 0 ⟨false, false, 0, false⟩).shared.sem = true) :=
  claim_C10 (RState.mk 3 0 ⟨false, false, 0, false⟩)
    (RReach.step (RReach.step (RReach.step (RReach.step RReach.init
      (show rstep rinit RLabel.stepA = some ⟨1, 0, ⟨false, true, 1, false⟩⟩ by decide))
      (show rstep ⟨1, 0, ⟨false, true, 1, false⟩⟩ RLabel.stepA =
        some ⟨2, 0, ⟨false, false, 1, false⟩⟩ by decide))
      (show rstep ⟨2, 0, ⟨false, false, 1, false⟩⟩ RLabel.loopExit =
        some ⟨2, 0, ⟨false, false, 0, false⟩⟩ by decide))
      (show rstep ⟨2, 0, ⟨false, false, 0, false⟩⟩ RLabel.stepA =
        some ⟨3, 0, ⟨false, false, 0, false⟩⟩ by decide))

/-! ## Shutdown sentinel and overrun handling -/

/-- Dequeuing the sentinel stops the consumer: everything delivered after
it is left unconsumed. -/
theorem storeFunction_sentinel :
    ∀ (cache : List (String × ValueDict)) (pre post : List QEntry),
      QEntry.sentinel ∉ pre →
      storeFunction cache (pre ++ .sentinel :: post) = ((storeFunction cache pre).1, post) := by
  intro cache pre
  induction pre generalizing cache with
  | nil =>
    intro post _
    simp [storeFunction]
  | cons e rest ih =>
    intro post hns
    have hne : e ≠ .sentinel := fun hc => hns (hc ▸ List.mem_cons_self _ _)
    have hns2 : QEntry.sentinel ∉ rest := fun hc => hns (List.mem_cons_of_mem _ hc)
    cases e with
    | noneObj =>
      simp only [List.cons_append, storeFunction]
      exact ih cache post hns2
    | sentinel => exact absurd rfl hne
    | item name vals =>
      simp only [List.cons_append, storeFunction]
      exact ih _ post hns2

/-- C5: `stop` pushes the shutdown sentinel exactly once, strictly after
the worker join and the pool termination, and a consumer that dequeues the
sentinel stops: queue entries delivered after it are not processed. -/
theorem claim_C5 :
    stopSequence.count .putSentinel = 1 ∧
    (∀ i < stopSequence.length, ∀ j < stopSequence.length,
      stopSequence[i]? = some .joinWorker → stopSequence[j]? = some .putSentinel → i < j) ∧
    (∀ i < stopSequence.length, ∀ j < stopSequence.length,
      stopSequence[i]? = some .terminatePool → stopSequence[j]? = some .putSentinel →
        i < j) ∧
    (∀ (cache : List (String × ValueDict)) (pre post : List QEntry),
      QEntry.sentinel ∉ pre →
      storeFunction cache (pre ++ .sentinel :: post) =
        ((storeFunction cache pre).1, post)) :=
  ⟨by decide, by decide, by decide, storeFunction_sentinel⟩

/-- Witness for C5: a consumer fed two data entries, the sentinel, and a
further entry processes the two entries and leaves the last one alone. -/
theorem claim_C5_witness :
    storeFunction [] ([QEntry.noneObj, QEntry.item "m" []] ++
        QEntry.sentinel :: [QEntry.item "m2" []]) =
      ((storeFunction [] [QEntry.noneObj, QEntry.item "m" []]).1,
        [QEntry.item "m2" []]) :=
  claim_C5.2.2.2 [] [QEntry.noneObj, QEntry.item "m" []] [QEntry.item "m2" []] (by decide)

/-- An overrun batch is dropped by the poll loop. -/
theorem scanDispatch_drop (r : ScanResult) (rest : List ScanResult)
    (hov : r.hardware_overrun = true ∨ r.buffer_overrun = true) :
    scanDispatch (r :: rest) = scanDispatch rest := by
  rcases hov with h | h
  · simp [scanDispatch, h]
  · by_cases hh : r.hardware_overrun <;> simp [scanDispatch, h, hh]

/-- A clean batch is dispatched by the poll loop. -/
theorem scanDispatch_keep (r : ScanResult) (rest : List ScanResult)
    (hh : r.hardware_overrun = false) (hb : r.buffer_overrun = false) :
    scanDispatch (r :: rest) = ⟨r.now, r.data⟩ :: scanDispatch rest := by
  simp [scanDispatch, hh, hb]

/-- C6: a poll whose batch reports a hardware or buffer overrun is
discarded — it is not dispatched and contributes zero derived points —
while the loop goes on: a clean next poll is dispatched normally. -/
theorem claim_C6 (r : ScanResult) (rest : List ScanResult)
    (hov : r.hardware_overrun = true ∨ r.buffer_overrun = true) :
    scanDispatch (r :: rest) = scanDispatch rest ∧
    (∀ (calcs : List (String × List Char)) (cfgName : String)
      (channelDict : List (String × Tag)) (scanRate : ℚ),
      (⟨r.now, r.data⟩ : ProcArgs) ∉ scanDispatch rest →
      pollPoints (scanDispatch (r :: rest)) ⟨r.now, r.data⟩ calcs cfgName channelDict
        scanRate = 0) ∧
    (∀ r2 : ScanResult, r2.hardware_overrun = false → r2.buffer_overrun = false →
      scanDispatch (r :: r2 :: rest) = ⟨r2.now, r2.data⟩ :: scanDispatch rest) := by
  refine ⟨scanDispatch_drop r rest hov, ?_, ?_⟩
  · intro calcs cfgName channelDict scanRate hmem
    rw [scanDispatch_drop r rest hov]
    unfold pollPoints
    rw [if_neg hmem]
  · intro r2 h2h h2b
    rw [scanDispatch_drop r (r2 :: rest) hov, scanDispatch_keep r2 rest h2h h2b]

/-- Witness for C6: a hardware-overrun poll followed by a clean poll. -/
theorem claim_C6_witness :
    scanDispatch [⟨[⟨10,1⟩], true, false, 5⟩] = scanDispatch [] ∧
    (∀ (calcs : List (String × List Char)) (cfgName : String)
      (channelDict : List (String × Tag)) (scanRate : ℚ),
      (⟨5, [⟨10,1⟩]⟩ : ProcArgs) ∉ scanDispatch [] →
      pollPoints (scanDispatch [⟨[⟨10,1⟩], true, false, 5⟩]) ⟨5, [⟨10,1⟩]⟩ calcs cfgName
        channelDict scanRate = 0) ∧
    (∀ r2 : ScanResult, r2.hardware_overrun = false → r2.buffer_overrun = false →
      scanDispatch [⟨[⟨10,1⟩], true, false, 5⟩, r2] = [⟨r2.now, r2.data⟩]) :=
  claim_C6 ⟨[⟨10,1⟩], true, false, 5⟩ [] (Or.inl rfl)

/-! ## Deep copies: `SentinelConfig.getConfig` isolation -/

/-- Pointwise-equal Option-valued functions have equal `mapM`. -/
theorem mapM_option_congr {α β : Type} (f g : α → Option β) :
    ∀ l : List α, (∀ x ∈ l, f x = g x) → l.mapM f = l.mapM g := by
  intro l
  induction l with
  | nil => intro _; rfl
  | cons x xs ih =>
    intro h
    simp only [List.mapM_cons]
    rw [h x (List.mem_cons_self _ _), ih (fun y hy => h y (List.mem_cons_of_mem _ hy))]

/-- `mapM` over a mapped list composes the functions. -/
theorem mapM_option_map {α β γ : Type} (g : α → β) (f : β → Option γ) :
    ∀ l : List α, (l.map g).mapM f = l.mapM (fun x => f (g x)) := by
  intro l
  induction l with
  | nil => rfl
  | cons x xs ih => simp only [List.map_cons, List.mapM_cons, ih]

/-- Two heaps that agree below `n`, where objects below `n` only refer
below `n`, yield the same value trees below `n`. -/
theorem readVal_congr (h1 h2 : Heap) (n : Nat)
    (hagree : ∀ a, a < n → h1.get? a = h2.get? a)
    (hbound : ∀ a o, a < n → h1.get? a = some o → ∀ b ∈ objRefs o, b < n) :
    ∀ f a, a < n → readVal h1 f a = readVal h2 f a := by
  intro f
  induction f with
  | zero => intro a _; rfl
  | succ f ih =>
    intro a ha
    unfold readVal
    rw [hagree a ha]
    cases hget : h2.get? a with
    | none => rfl
    | some o =>
      have hget1 : h1.get? a = some o := by rw [hagree a ha, hget]
      have hrefs := hbound a o ha hget1
      cases o with
      | scalar v => rfl
      | arr es =>
        show Option.map JVal.arr (List.mapM (readVal h1 f) es) =
          Option.map JVal.arr (List.mapM (readVal h2 f) es)
        rw [mapM_option_congr (readVal h1 f) (readVal h2 f) es
          (fun b hbm => ih b (hrefs b hbm))]
      | dict es =>
        show Option.map JVal.dict
            (List.mapM (fun p => (readVal h1 f p.2).map (fun t => (p.1, t))) es) =
          Option.map JVal.dict
            (List.mapM (fun p => (readVal h2 f p.2).map (fun t => (p.1, t))) es)
        rw [mapM_option_congr _
          (fun p => (readVal h2 f p.2).map (fun t => (p.1, t))) es
          (fun p hpm => by
            rw [ih p.2 (hrefs p.2 (List.mem_map_of_mem Prod.snd hpm))])]

/-- Extending the heap does not change the value trees of existing
objects. -/
theorem readVal_append (h ext : Heap) (hc : heapClosed h) :
    ∀ f a, a < h.length → readVal (h ++ ext) f a = readVal h f a := by
  refine readVal_congr (h ++ ext) h h.length (fun a ha => ?_)
    (fun a o ha hget b hb => ?_)
  · exact List.get?_append ha
  · have hh : (h ++ ext).get? a = h.get? a := List.get?_append ha
    rw [hh] at hget
    exact hc o (List.get?_mem hget) b hb

/-- Writing at an address at or above `n` does not change the value tree
of an object below `n`, when objects below `n` only reference below `n`. -/
theorem readVal_set_high (h2 : Heap) (n : Nat)
    (hlow : ∀ i o, i < n → h2.get? i = some o → ∀ b ∈ objRefs o, b < n)
    (w : Nat) (hw : n ≤ w) (o2 : PyObj) :
    ∀ f a, a < n → readVal (hset h2 w o2) f a = readVal h2 f a := by
  have hagree : ∀ a, a < n → (hset h2 w o2).get? a = h2.get? a := by
    intro a ha
    unfold hset
    exact List.get?_set_ne _ _ (by omega : w ≠ a)
  refine readVal_congr (hset h2 w o2) h2 n hagree (fun a o ha hget b hb => ?_)
  rw [hagree a ha] at hget
  exact hlow a o ha hget b hb

/-- A sequence of writes at addresses at or above `n` does not change any
value tree rooted below `n`. -/
theorem readVal_applyWrites_high (n : Nat) :
    ∀ (ws : List (Nat × PyObj)) (h2 : Heap),
      (∀ i o, i < n → h2.get? i = some o → ∀ b ∈ objRefs o, b < n) →
      (∀ w ∈ ws, n ≤ w.1) →
      ∀ f a, a < n → readVal (applyWrites h2 ws) f a = readVal h2 f a := by
  intro ws
  induction ws with
  | nil => intro h2 _ _ f a _; rfl
  | cons w ws2 ih =>
    intro h2 hlow hws f a ha
    have hw1 : n ≤ w.1 := hws w (List.mem_cons_self _ _)
    have hlow2 : ∀ i o, i < n → (hset h2 w.1 w.2).get? i = some o →
        ∀ b ∈ objRefs o, b < n := by
      intro i o hi hget
      unfold hset at hget
      rw [List.get?_set_ne _ _ (by omega : w.1 ≠ i)] at hget
      exact hlow i o hi hget
    have happ : applyWrites h2 (w :: ws2) = applyWrites (hset h2 w.1 w.2) ws2 := rfl
    rw [happ,
      ih (hset h2 w.1 w.2) hlow2 (fun v hv => hws v (List.mem_cons_of_mem _ hv)) f a ha,
      readVal_set_high h2 n hlow w.1 hw1 w.2 f a ha]

/-- The fresh copy made by `deepcopy` reads back exactly the value tree of
the original. -/
theorem readVal_copy (h : Heap) (hc : heapClosed h) :
    ∀ f a, a < h.length →
      readVal (h ++ h.map (shiftObj h.length)) f (a + h.length) = readVal h f a := by
  intro f
  induction f with
  | zero => intro a _; rfl
  | succ f ih =>
    intro a ha
    unfold readVal
    rw [List.get?_append_right (by omega : h.length ≤ a + h.length),
      show a + h.length - h.length = a from by omega, List.get?_map]
    cases hget : h.get? a with
    | none => rfl
    | some o =>
      have hmem : o ∈ h := List.get?_mem hget
      cases o with
      | scalar v => rfl
      | arr es =>
        show Option.map JVal.arr
            (List.mapM (readVal (h ++ h.map (shiftObj h.length)) f)
              (es.map (· + h.length))) =
          Option.map JVal.arr (List.mapM (readVal h f) es)
        rw [mapM_option_map (· + h.length)
          (readVal (h ++ h.map (shiftObj h.length)) f) es]
        rw [mapM_option_congr _ (readVal h f) es
          (fun b hbm => ih b (hc _ hmem b hbm))]
      | dict es =>
        show Option.map JVal.dict
            (List.mapM
              (fun p => (readVal (h ++ h.map (shiftObj h.length)) f p.2).map
                (fun t => (p.1, t)))
              (es.map (fun p => (p.1, p.2 + h.length)))) =
          Option.map JVal.dict
            (List.mapM (fun p => (readVal h f p.2).map (fun t => (p.1, t))) es)
        rw [mapM_option_map (fun p => (p.1, p.2 + h.length))
          (fun p => (readVal (h ++ h.map (shiftObj h.length)) f p.2).map
            (fun t => (p.1, t))) es]
        rw [mapM_option_congr _
          (fun p => (readVal h f p.2).map (fun t => (p.1, t))) es
          (fun p hpm => by
            simp only
            rw [ih p.2 (hc _ hmem p.2 (List.mem_map_of_mem Prod.snd hpm))])]

/-- C9: `getConfig` hands out a deep copy — the returned root is a fresh
address, every pre-existing object (in particular the stored
configuration) reads back unchanged after the copy, and caller mutations
confined to the fresh region cannot alter it; the copy itself reads back
exactly the stored value; and a reconfiguration call replaces only the
active index, never the loaded configuration list. -/
theorem claim_C9 (h : Heap) (cd : Nat) (dom : String) (h2 : Heap) (a2 : Nat)
    (s : DAQState) (idx : Nat)
    (hc : heapClosed h) (hget : getConfigH h cd dom = some (h2, a2)) :
    h2 = h ++ h.map (shiftObj h.length) ∧
    h.length ≤ a2 ∧
    (∀ f b, b < h.length → readVal h2 f b = readVal h f b) ∧
    (∀ ws : List (Nat × PyObj), (∀ w ∈ ws, h.length ≤ w.1) → ∀ f b, b < h.length →
      readVal (applyWrites h2 ws) f b = readVal h f b) ∧
    (∀ f, readVal h2 f a2 = readVal h f (a2 - h.length)) ∧
    (changeMeasConfigState s idx).measurementConfig = s.measurementConfig ∧
    (changeMeasConfigState s idx).activeMeasConfigIdx = idx := by
  unfold getConfigH at hget
  cases hcd : h.get? cd with
  | none =>
    simp only [hcd] at hget
    exact Option.noConfusion hget
  | some o =>
    cases o with
    | scalar v =>
      simp only [hcd] at hget
      exact Option.noConfusion hget
    | arr es =>
      simp only [hcd] at hget
      exact Option.noConfusion hget
    | dict entries =>
      simp only [hcd] at hget
      cases hdg : dget entries dom with
      | none =>
        simp only [hdg] at hget
        exact Option.noConfusion hget
      | some a =>
        simp only [hdg, deepcopy] at hget
        have hpair := Option.some.inj hget
        obtain ⟨heq1, heq2⟩ : h ++ h.map (shiftObj h.length) = h2 ∧ a + h.length = a2 :=
          ⟨congrArg Prod.fst hpair, congrArg Prod.snd hpair⟩
        subst heq1
        subst heq2
        have hdictmem : PyObj.dict entries ∈ h := List.get?_mem hcd
        have hamem : a ∈ objRefs (PyObj.dict entries) := by
          simp only [objRefs]
          exact List.mem_map_of_mem Prod.snd (dget_some_mem hdg)
        have hab : a < h.length := hc _ hdictmem a hamem
        have hlow : ∀ i o, i < h.length →
            (h ++ h.map (shiftObj h.length)).get? i = some o →
            ∀ b ∈ objRefs o, b < h.length := by
          intro i o hi hgo
          rw [List.get?_append hi] at hgo
          exact hc o (List.get?_mem hgo)
        refine ⟨rfl, by omega, ?_, ?_, ?_, rfl, rfl⟩
        · intro f b hb
          exact readVal_append h _ hc f b hb
        · intro ws hws f b hb
          rw [readVal_applyWrites_high h.length ws _ hlow hws f b hb]
          exact readVal_append h _ hc f b hb
        · intro f
          rw [show a + h.length - h.length = a from by omega]
          exact readVal_copy h hc f a hab

/-- Witness for C9: a three-object heap holding one configuration; the
caller overwrites part of its copy and the stored configuration still
reads back unchanged. -/
theorem claim_C9_witness :
    readVal (applyWrites ([.dict [("MeasurmentConfig", 1)], .arr [2], .scalar (.sv "cfg"),
        .dict [("MeasurmentConfig", 4)], .arr [5], .scalar (.sv "cfg")] : Heap)
        [(4, PyObj.arr [])]) 3 1 =
      readVal ([.dict [("MeasurmentConfig", 1)], .arr [2], .scalar (.sv "cfg")] : Heap)
        3 1 :=
  (claim_C9 [.dict [("MeasurmentConfig", 1)], .arr [2], .scalar (.sv "cfg")] 0
    "MeasurmentConfig"
    [.dict [("MeasurmentConfig", 1)], .arr [2], .scalar (.sv "cfg"),
      .dict [("MeasurmentConfig", 4)], .arr [5], .scalar (.sv "cfg")] 4
    ⟨[], 0, false, []⟩ 1 (by decide) (by decide)).2.2.2.1
    [(4, PyObj.arr [])] (by decide) 3 1 (by decide)

end Sentinel
